import Mathlib

/-!
Verification of the core of `sourcegraph/thyme` against its specification.

The Go source is shallowly embedded below:
* `data.go`    : `Window`, `Winfo`, `Snapshot`, `Stream`, `Window.Info`
* `stats.go`   : `Range`, `Timeline`, `NewTimeline`, `BarChart`, `Bar`,
                 `NewAggTime`, `OrderedBars`, `appID`
Times (`time.Time`) are embedded as `Nat` (only ordering and equality of
timestamps are used by the code).  Go slices become `List`s, `nil` pointers
become `Option`, and the mutation of `Range` objects through pointers held
both in the output slice and in the `lastVisible` / `lastOther` maps is made
explicit: the state keeps the output list of ranges together with an
association list mapping a label to the *index* of its currently-open range
in that output list, and a pointer write `r.End = t` becomes a functional
update of the list at that index.
-/

namespace Thyme

/-! ## Window title parser (`data.go`) -/

/-- Character class used by Go's `strings.TrimSpace` (`unicode.IsSpace`):
`\t \n \v \f \r ' '`, `U+0085`, `U+00A0` and the Unicode `White_Space`
code points. -/
def isGoSpace (c : Char) : Bool :=
  decide (c.toNat = 9 ∨ c.toNat = 10 ∨ c.toNat = 11 ∨ c.toNat = 12 ∨
    c.toNat = 13 ∨ c.toNat = 32 ∨ c.toNat = 0x85 ∨ c.toNat = 0xA0 ∨
    c.toNat = 0x1680 ∨ (0x2000 ≤ c.toNat ∧ c.toNat ≤ 0x200A) ∨
    c.toNat = 0x2028 ∨ c.toNat = 0x2029 ∨ c.toNat = 0x202F ∨
    c.toNat = 0x205F ∨ c.toNat = 0x3000)

/-- Embeds Go `strings.TrimSpace`. -/
def trimChars (s : List Char) : List Char :=
  ((s.dropWhile isGoSpace).reverse.dropWhile isGoSpace).reverse

/-- Embeds Go `strings.Split(name, " - ")` (`WindowTitleSeparator = " - "`):
split around leftmost non-overlapping occurrences of the three-character
separator.  Like Go's `Split`, the result is always non-empty and splitting
the empty string yields `[""]`. -/
def splitFields : List Char → List (List Char)
  | ' ' :: '-' :: ' ' :: rest => [] :: splitFields rest
  | c :: rest =>
    match splitFields rest with
    | [] => [[c]]
    | f :: fs => (c :: f) :: fs
  | [] => [[]]

/-- Embeds Go `strings.Join(fields, " - ")`. -/
def joinSep : List (List Char) → List Char
  | [] => []
  | [f] => f
  | f :: fs => f ++ ' ' :: '-' :: ' ' :: joinSep fs

/-- Structured metadata about a window (`Winfo` in `data.go`). -/
structure Winfo where
  App : String
  SubApp : String
  Title : String
deriving DecidableEq, Repr

/-- An application window (`Window` in `data.go`).  `ID` is `int64` in Go;
only equality of IDs is used, so it is embedded as `Int`. -/
structure Window where
  ID : Int
  Desktop : Int
  Name : String
deriving DecidableEq, Repr

/-- Embeds `Window.Info` from `data.go`.  Go slice indexing (`fields[i]`)
panics when out of bounds, so each indexing step is modelled with
`List.get?` in the `Option` monad; `none` would mean a runtime panic. -/
def Window.Info (w : Window) : Option Winfo :=
  let fields := splitFields w.Name.data
  if fields.length > 1 then do
    let f0 ← fields.get? 0
    let fl ← fields.get? (fields.length - 1)
    let first := String.mk (trimChars f0)
    let last := String.mk (trimChars fl)
    if last = "Google Chrome" then do
      let sub ← fields.get? (fields.length - 2)
      pure ⟨"Google Chrome", String.mk (trimChars sub),
            String.mk (joinSep (fields.take (fields.length - 2)))⟩
    else if first = "Slack" then
      pure ⟨"Slack", String.mk (trimChars (joinSep (fields.drop 1))), ""⟩
    else
      pure ⟨last, "", String.mk (joinSep (fields.take (fields.length - 1)))⟩
  else
    pure ⟨"", "", w.Name⟩

/-! ## Snapshot / Stream model (`data.go`) -/

/-- A point-in-time observation (`Snapshot` in `data.go`); `time.Time` is
embedded as `Nat`. -/
structure Snapshot where
  Time : Nat
  Windows : List Window
  Active : Int
  Visible : List Int
deriving DecidableEq, Repr

/-- All sampling data (`Stream` in `data.go`). -/
structure Stream where
  Snapshots : List Snapshot
deriving DecidableEq, Repr

/-- A labeled range of time (`Range` in `stats.go`). -/
structure Range where
  Label : String
  Start : Nat
  End : Nat
deriving DecidableEq, Repr

/-! ## Timeline reconstruction (`stats.go`)

`NewTimeline` mutates `Range` values through pointers stored both in the
output slices and in `lastActive` / `lastVisible` / `lastOther`.  The
embedding replaces each such pointer by the index of the range in its
track's output list, and the write `r.End = snap.Time` by a functional
update at that index. -/

/-- Embeds the per-snapshot `windows` map (`windows[win.ID] = win` in
order, so a duplicated ID keeps the last window) applied to a lookup
`windows[id]`; `none` is Go's `nil`. -/
def windowsMap (ws : List Window) (id : Int) : Option Window :=
  ws.foldl (fun acc w => if w.ID = id then some w else acc) none

/-- Functional update of the `End` field of the range at index `i`: the Go
pointer write `r.End = t`, with the pointer replaced by the index. -/
def setEndAt : List Range → Nat → Nat → List Range
  | [], _, _ => []
  | r :: rs, 0, t => ⟨r.Label, r.Start, t⟩ :: rs
  | r :: rs, i+1, t => r :: setEndAt rs i t

/-- Pointwise form of the "extend every open range" loop, used in proofs:
update the `End` field at every index satisfying `f` (shifted while the
list is traversed). -/
def stampEnd (f : Nat → Bool) (t : Nat) : List Range → List Range
  | [] => []
  | r :: rs =>
    (if f 0 then ⟨r.Label, r.Start, t⟩ else r) :: stampEnd (fun j => f (j+1)) t rs

/-- Association-list lookup; embeds a read of a Go `map[string]*Range`
(with each `*Range` replaced by an index into the track's output list). -/
def lookupA : List (String × Nat) → String → Option Nat
  | [], _ => none
  | (k, v) :: m, ℓ => if k = ℓ then some v else lookupA m ℓ

/-- Association-list overwrite-or-append; embeds a Go map assignment. -/
def insertA : List (String × Nat) → String → Nat → List (String × Nat)
  | [], k, v => [(k, v)]
  | (k', v') :: m, k, v => if k' = k then (k, v) :: m else (k', v') :: insertA m k v

/-- State of the `Visible` / `All` sub-machine of `NewTimeline`: the
track's output list (`visible` / `other` in Go) and the open-range map
(`lastVisible` / `lastOther`). -/
structure MultiState where
  ranges : List Range
  openm : List (String × Nat)
deriving DecidableEq, Repr

/-- Embeds `for _, prevRange := range lastVisible { prevRange.End = snap.Time }`.
All entries write the same value to distinct ranges, so Go's unspecified
map-iteration order does not affect the result. -/
def extendOpen (rs : List Range) (m : List (String × Nat)) (t : Nat) : List Range :=
  m.foldl (fun rs p => setEndAt rs p.2 t) rs

/-- Embeds the `for _, v := range snap.Visible` (resp. `snap.Windows`) loop
of `NewTimeline`: for each label in turn, if it has no open range in the
*previous* map (`lastVisible`), append a fresh zero-length range and record
its index in the next map, else carry the existing index over. -/
def addLoop (openOld : List (String × Nat)) (t : Nat) :
    List Range × List (String × Nat) → List String → List Range × List (String × Nat)
  | acc, [] => acc
  | (rs, nx), ℓ :: ls =>
    match lookupA openOld ℓ with
    | none => addLoop openOld t (rs ++ [⟨ℓ, t, t⟩], insertA nx ℓ rs.length) ls
    | some i => addLoop openOld t (rs, insertA nx ℓ i) ls

/-- One snapshot of the `Visible` / `All` track machine. -/
def multiStep (st : MultiState) (t : Nat) (labels : List String) : MultiState :=
  let rs1 := extendOpen st.ranges st.openm t
  let res := addLoop st.openm t (rs1, []) labels
  ⟨res.1, res.2⟩

/-- State of the `Active` sub-machine: the `active` output list and
`lastActive` as an index (`none` = `nil`). -/
structure ActiveState where
  ranges : List Range
  lastActive : Option Nat
deriving DecidableEq, Repr

/-- One snapshot of the `Active` track machine; `act` is the label of the
resolved active window, `none` when `snap.Active` matches no window.  The
inner `none` case of the index lookup is unreachable (in Go `lastActive`
always points to a live range) and is treated like `lastActive = nil`. -/
def activeStep (st : ActiveState) (t : Nat) (act : Option String) : ActiveState :=
  match act with
  | none => ⟨st.ranges, none⟩
  | some ℓ =>
    match st.lastActive with
    | none => ⟨st.ranges ++ [⟨ℓ, t, t⟩], some st.ranges.length⟩
    | some i =>
      match st.ranges.get? i with
      | none => ⟨st.ranges ++ [⟨ℓ, t, t⟩], some st.ranges.length⟩
      | some r =>
        if r.Label = ℓ then ⟨setEndAt st.ranges i t, some i⟩
        else ⟨setEndAt st.ranges i t ++ [⟨ℓ, t, t⟩], some (setEndAt st.ranges i t).length⟩

/-- Label of the resolved active window: `windows[snap.Active]` with
`labelFunc` applied when non-nil. -/
def activeLabel (lf : Option Window → String) (snap : Snapshot) : Option String :=
  (windowsMap snap.Windows snap.Active).map (fun w => lf (some w))

/-- Labels scanned by the `Visible` loop: for each id in `snap.Visible` the
label of the resolved window, or `""` when the id matches no window
(`var winLabel string` keeps its zero value in Go). -/
def visibleLabels (lf : Option Window → String) (snap : Snapshot) : List String :=
  snap.Visible.map (fun v =>
    match windowsMap snap.Windows v with
    | some w => lf (some w)
    | none => "")

/-- Labels scanned by the `All` loop: every window of the snapshot. -/
def allLabels (lf : Option Window → String) (snap : Snapshot) : List String :=
  snap.Windows.map (fun w => lf (some w))

/-- Combined loop state of `NewTimeline`; the three blocks of the Go loop
body read and write disjoint variables. -/
structure TLState where
  act : ActiveState
  vis : MultiState
  oth : MultiState
deriving DecidableEq, Repr

/-- Loop body of `NewTimeline`. -/
def tlStep (lf : Option Window → String) (st : TLState) (snap : Snapshot) : TLState :=
  ⟨activeStep st.act snap.Time (activeLabel lf snap),
   multiStep st.vis snap.Time (visibleLabels lf snap),
   multiStep st.oth snap.Time (allLabels lf snap)⟩

/-- A timeline (`Timeline` in `stats.go`); the Go `Rows` map has exactly
the keys `"Active"`, `"Visible"`, `"All"`, kept as three fields. -/
structure Timeline where
  Start : Nat
  End : Nat
  Active : List Range
  Visible : List Range
  All : List Range
deriving DecidableEq, Repr

/-- Embeds `NewTimeline` from `stats.go`.  The label function takes an
`Option Window` (`*Window` in Go, `none` = `nil`); `NewTimeline` itself
only ever applies it to `some` window. -/
def NewTimeline (stream : Stream) (lf : Option Window → String) : Option Timeline :=
  match stream.Snapshots with
  | [] => none
  | s0 :: _ =>
    let fin := stream.Snapshots.foldl (tlStep lf) ⟨⟨[], none⟩, ⟨[], []⟩, ⟨[], []⟩⟩
    some ⟨s0.Time, (stream.Snapshots.getLastD s0).Time,
          fin.act.ranges, fin.vis.ranges, fin.oth.ranges⟩

/-! ## Frequency aggregation (`stats.go`) -/

/-- Number of bars kept by `OrderedBars` (`maxNumberOfBars` in `stats.go`). -/
def maxNumberOfBars : Nat := 30

/-- A bar chart (`BarChart` in `stats.go`).  The Go `Series` map
`map[string]int` is embedded as an association list in insertion order;
counts are `Int` (Go `int`). -/
structure BarChart where
  ID : String
  YLabel : String
  XLabel : String
  Title : String
  Series : List (String × Int)
deriving DecidableEq, Repr

/-- A single bar (`Bar` in `stats.go`). -/
structure Bar where
  Label : String
  Count : Int
deriving DecidableEq, Repr

/-- Embeds `NewBarChart`. -/
def NewBarChart (id x y title : String) : BarChart :=
  ⟨id, x, y, title, []⟩

/-- Embeds the Go map update `c.Series[label] += n` (a missing key reads as
zero, so the entry is created with value `n`). -/
def seriesAdd : List (String × Int) → String → Int → List (String × Int)
  | [], k, n => [(k, n)]
  | (k', c) :: m, k, n =>
    if k' = k then (k, c + n) :: m else (k', c) :: seriesAdd m k n

/-- Embeds `BarChart.Plus`. -/
def BarChart.Plus (c : BarChart) (label : String) (n : Int) : BarChart :=
  { c with Series := seriesAdd c.Series label n }

/-- Reads a count back from a series (a missing label counts as zero, as in
a Go map read). -/
def seriesGet : List (String × Int) → String → Int
  | [], _ => 0
  | (k', c) :: m, k => if k' = k then c else seriesGet m k

/-- The three charts built by `NewAggTime` (it returns them as the list
`Charts = [active, visible, all]`). -/
structure AggTime where
  ActiveChart : BarChart
  VisibleChart : BarChart
  AllChart : BarChart
deriving DecidableEq, Repr

/-- Loop body of `NewAggTime` for one snapshot: count the resolved active
window (skipping an unresolvable `snap.Active`), every id of `snap.Visible`
(the label function is applied to the raw lookup result, `nil` included),
and every window of `snap.Windows`. -/
def aggStep (lf : Option Window → String) (st : AggTime) (snap : Snapshot) : AggTime :=
  let act := match windowsMap snap.Windows snap.Active with
    | some _ => st.ActiveChart.Plus (lf (windowsMap snap.Windows snap.Active)) 1
    | none => st.ActiveChart
  let vis := snap.Visible.foldl
    (fun c v => c.Plus (lf (windowsMap snap.Windows v)) 1) st.VisibleChart
  let al := snap.Windows.foldl (fun c w => c.Plus (lf (some w)) 1) st.AllChart
  ⟨act, vis, al⟩

/-- Embeds `NewAggTime` from `stats.go` (`n = strconv.Itoa(maxNumberOfBars)`
appears in the chart titles). -/
def NewAggTime (stream : Stream) (lf : Option Window → String) : AggTime :=
  let n := toString maxNumberOfBars
  let active := NewBarChart "Active" "App" "Samples"
    ("Top " ++ n ++ " active applications by time (multiplied by window count)")
  let visible := NewBarChart "Visible" "App" "Samples"
    ("Top " ++ n ++ " visible applications by time (multiplied by window count)")
  let all := NewBarChart "All" "App" "Samples"
    ("Top " ++ n ++ " open applications by time (multiplied by window count)")
  stream.Snapshots.foldl (aggStep lf) ⟨active, visible, all⟩

/-- Insertion of a bar into a prefix already sorted by decreasing count:
the bar moves left past every bar with a strictly smaller count
(`sortBars.Less(a, b) = bars[a].Count > bars[b].Count`).  `insBar` composed
over the list is exactly the insertion sort Go's `sort.Sort` runs for
slices of fewer than 12 elements; larger slices go through an *unstable*
quicksort, for which this model is one of the sorted permutations the
runtime may produce. -/
def insBar (x : Bar) : List Bar → List Bar
  | [] => [x]
  | y :: ys => if x.Count > y.Count then x :: y :: ys else y :: insBar x ys

/-- Model of `sort.Sort(sortBars{bars})`: see `insBar`. -/
def sortBarsList (bars : List Bar) : List Bar :=
  bars.foldl (fun acc x => insBar x acc) []

/-- Embeds `OrderedBars`.  The Go loop `for l, c := range c.Series` walks
the `Series` map in an order the runtime deliberately randomizes, so the
enumeration order is an explicit parameter here: `enum` may be any
permutation of the chart's `Series` entries. -/
def OrderedBarsWith (enum : List (String × Int)) : List Bar :=
  let bars := enum.map (fun p => (⟨p.1, p.2⟩ : Bar))
  let s := sortBarsList bars
  let numberOfBars := if maxNumberOfBars > s.length then s.length else maxNumberOfBars
  s.take numberOfBars

/-- Embeds `appID` from `stats.go`, on top of the parsed `Winfo` (total by
`C7`; the `Option` fallback mirrors `Info`'s panic modelling and is never
taken).  The middle branch returns `" :: " ++ SubApp` with an empty `App`,
exactly as Go's `fmt.Sprintf("%s :: %s", ...)` does there. -/
def appID (w : Option Window) : String :=
  match w with
  | none => "(nil)"
  | some w =>
    match w.Info with
    | none => ""
    | some info =>
      if info.App ≠ "" then info.App
      else if info.SubApp ≠ "" then info.App ++ " :: " ++ info.SubApp
      else if info.Title ≠ "" then info.Title
      else w.Name

/-! ## Specification-side definitions

These are *not* translations of the Go source; they state, in direct
recursive form, what the claims (as amended where necessary) assert about
the reconstruction, and the theorems below relate them to the machine. -/

/-- Expected ranges of one label on a multi-label track, one per maximal
run of presence: processing `(t, ls)` pairs in order, an open range for `ℓ`
has its `End` extended to every snapshot time while `ℓ` stays present *and
also* to the time of the first snapshot at which `ℓ` is absent (the extend
loop of `NewTimeline` runs before the membership check); a run starting
snapshot opens a fresh zero-length range. -/
def runsGo (ℓ : String) : Option Range → List (Nat × List String) → List Range
  | some r, [] => [r]
  | none, [] => []
  | some r, (t, ls) :: rest =>
    if ℓ ∈ ls then runsGo ℓ (some ⟨ℓ, r.Start, t⟩) rest
    else ⟨ℓ, r.Start, t⟩ :: runsGo ℓ none rest
  | none, (t, ls) :: rest =>
    if ℓ ∈ ls then runsGo ℓ (some ⟨ℓ, t, t⟩) rest
    else runsGo ℓ none rest

/-- The per-snapshot `(time, visible labels)` and `(time, all labels)`
sequences a stream feeds to the two multi-label tracks. -/
def visPairs (lf : Option Window → String) (snaps : List Snapshot) :
    List (Nat × List String) :=
  snaps.map (fun s => (s.Time, visibleLabels lf s))

/-- Companion of `visPairs` for the `All` track. -/
def allPairs (lf : Option Window → String) (snaps : List Snapshot) :
    List (Nat × List String) :=
  snaps.map (fun s => (s.Time, allLabels lf s))

/-- The `(time, active label)` sequence a stream feeds to the active track. -/
def actPairs (lf : Option Window → String) (snaps : List Snapshot) :
    List (Nat × Option String) :=
  snaps.map (fun s => (s.Time, activeLabel lf s))

/-- Iterated `multiStep` (the `Visible` / `All` part of the snapshot loop). -/
def multiFold (st : MultiState) (ps : List (Nat × List String)) : MultiState :=
  ps.foldl (fun s p => multiStep s p.1 p.2) st

/-- Iterated `activeStep` (the `Active` part of the snapshot loop). -/
def activeFold (st : ActiveState) (xs : List (Nat × Option String)) : ActiveState :=
  xs.foldl (fun s p => activeStep s p.1 p.2) st

/-- The sublist of a track having a given label. -/
def filterLabel (ℓ : String) (rs : List Range) : List Range :=
  rs.filter (fun r => decide (r.Label = ℓ))

/-- Well-formedness of one open-map entry `(label, index)`: the index points
at a range of that label, and no later range in the track has the label
(the open range of a label is always its most recent one). -/
def goodEntry (rs : List Range) (p : String × Nat) : Prop :=
  ∃ r, rs.get? p.2 = some r ∧ r.Label = p.1 ∧
    ∀ j r', p.2 < j → rs.get? j = some r' → r'.Label ≠ p.1

/-- Invariant of the `Visible` / `All` machine state: every open-map entry
is well formed and open-map keys are distinct (Go map semantics). -/
def goodState (st : MultiState) : Prop :=
  (∀ p ∈ st.openm, goodEntry st.ranges p) ∧ (st.openm.map Prod.fst).Nodup

/-- The label function `func(w *Window) string { return w.Name }` that
`Stats` passes for the fine-grained timeline; `NewTimeline` never applies
it to `nil`, so the `none` branch (which would crash in Go) is arbitrary. -/
def byName : Option Window → String
  | some w => w.Name
  | none => ""

/-- What the remaining snapshots contribute to the `ℓ`-ranges of a track,
starting from machine state `st`: the `ℓ`-ranges already fully closed in
`st`, followed by the runs of the remaining label sequence (`runsGo`),
seeded with the currently-open `ℓ`-range when there is one. -/
def runsFrom (st : MultiState) (ℓ : String) (ps : List (Nat × List String)) :
    List Range :=
  match lookupA st.openm ℓ with
  | none => filterLabel ℓ st.ranges ++ runsGo ℓ none ps
  | some i =>
    match st.ranges.get? i with
    | some r => filterLabel ℓ (st.ranges.take i) ++ runsGo ℓ (some r) ps
    | none => []


/-! ### Basic facts about the parser -/

theorem splitFields_ne_nil (s : List Char) : splitFields s ≠ [] := by
  induction s with
  | nil => simp [splitFields]
  | cons c rest ih =>
    match c, rest with
    | ' ', '-' :: ' ' :: r => simp [splitFields]
    | c, rest =>
      rw [splitFields.eq_def]
      split
      · simp
      · rename_i f fs _
        split <;> simp
      · simp

/-- Claim C7: every window name is parsed without failure, and a name with a
single segment (no " - " separator) yields `Winfo` with `Title` equal to the
raw name and `App`/`SubApp` empty. -/
theorem C7_info_total (w : Window) :
    (w.Info).isSome = true ∧
      ((splitFields w.Name.data).length = 1 →
        w.Info = some ⟨"", "", w.Name⟩) := by
  constructor
  · unfold Window.Info
    by_cases h : (splitFields w.Name.data).length > 1
    · simp only [h, if_true]
      have h0 : (splitFields w.Name.data).get? 0 =
          some ((splitFields w.Name.data).get ⟨0, by omega⟩) :=
        List.get?_eq_get (by omega)
      have hl : (splitFields w.Name.data).get? ((splitFields w.Name.data).length - 1) =
          some ((splitFields w.Name.data).get ⟨(splitFields w.Name.data).length - 1, by omega⟩) :=
        List.get?_eq_get (by omega)
      have h2 : (splitFields w.Name.data).get? ((splitFields w.Name.data).length - 2) =
          some ((splitFields w.Name.data).get ⟨(splitFields w.Name.data).length - 2, by omega⟩) :=
        List.get?_eq_get (by omega)
      rw [h0, hl]
      simp only [Option.bind_some, Option.some_bind, bind, Option.bind]
      split
      · rw [h2]; simp
      · split <;> simp
    · simp [h]
  · intro h1
    unfold Window.Info
    simp [h1]

/-- Witness for C7 at the single-segment name "Google Chrome" (the very name
that crashes the unguarded early revision of `Info`). -/
theorem C7_info_total_witness :
    (Window.Info ⟨1, 0, "Google Chrome"⟩).isSome = true ∧
      Window.Info ⟨1, 0, "Google Chrome"⟩ = some ⟨"", "", "Google Chrome"⟩ := by
  have h := C7_info_total ⟨1, 0, "Google Chrome"⟩
  exact ⟨h.1, h.2 (by decide)⟩

/-- Claim C8: with at least two segments, a trimmed last segment other than
"Google Chrome" and a trimmed first segment other than "Slack", `Info`
returns `App` = trimmed last segment, `Title` = the remaining segments
rejoined with " - ", `SubApp` empty. -/
theorem C8_info_default (w : Window) (f0 fl : List Char)
    (h0 : (splitFields w.Name.data).get? 0 = some f0)
    (hl : (splitFields w.Name.data).get?
      ((splitFields w.Name.data).length - 1) = some fl)
    (hlen : 2 ≤ (splitFields w.Name.data).length)
    (hgc : String.mk (trimChars fl) ≠ "Google Chrome")
    (hsl : String.mk (trimChars f0) ≠ "Slack") :
    w.Info = some ⟨String.mk (trimChars fl), "",
      String.mk (joinSep ((splitFields w.Name.data).take
        ((splitFields w.Name.data).length - 1)))⟩ := by
  unfold Window.Info
  have hgt : (splitFields w.Name.data).length > 1 := by omega
  simp only [hgt, if_true, h0, hl, Option.some_bind]
  simp [hgc, hsl]

/-- Claim C1: `NewTimeline` returns `none` exactly on a stream with zero
snapshots (and hence a `Timeline` value on every non-empty stream). -/
theorem C1_NewTimeline_none_iff (stream : Stream) (lf : Option Window → String) :
    NewTimeline stream lf = none ↔ stream.Snapshots = [] := by
  rcases stream with ⟨snaps⟩
  cases snaps <;> simp [NewTimeline]

/-- Witness for C8: the spec's concrete case "notes.txt - Vim". -/
theorem C8_info_default_witness :
    Window.Info ⟨1, 0, "notes.txt - Vim"⟩ = some ⟨"Vim", "", "notes.txt"⟩ := by
  have h := C8_info_default ⟨1, 0, "notes.txt - Vim"⟩
    "notes.txt".data "Vim".data (by decide) (by decide) (by decide)
    (by decide) (by decide)
  exact h.trans (by decide)

/-! ### List-machinery lemmas for the track state machines -/

theorem setEndAt_length (rs : List Range) (i t : Nat) :
    (setEndAt rs i t).length = rs.length := by
  induction rs generalizing i with
  | nil => rfl
  | cons r rs ih => cases i <;> simp [setEndAt, ih]

theorem stampEnd_congr (f g : Nat → Bool) (t : Nat) (rs : List Range)
    (h : ∀ j, f j = g j) : stampEnd f t rs = stampEnd g t rs := by
  have hfg : f = g := funext h
  rw [hfg]

theorem stampEnd_false (f : Nat → Bool) (t : Nat) (rs : List Range)
    (h : ∀ j, f j = false) : stampEnd f t rs = rs := by
  induction rs generalizing f with
  | nil => rfl
  | cons r rs ih =>
    simp [stampEnd, h 0, ih (fun j => f (j+1)) (fun j => h (j+1))]

theorem stampEnd_get? (f : Nat → Bool) (t : Nat) (rs : List Range) (j : Nat) :
    (stampEnd f t rs).get? j =
      (rs.get? j).map (fun r => if f j then ⟨r.Label, r.Start, t⟩ else r) := by
  induction rs generalizing f j with
  | nil => simp [stampEnd]
  | cons r rs ih =>
    cases j with
    | zero => simp [stampEnd]
    | succ j =>
      simp only [stampEnd, List.get?_cons_succ]
      exact ih _ j

theorem stampEnd_length (f : Nat → Bool) (t : Nat) (rs : List Range) :
    (stampEnd f t rs).length = rs.length := by
  induction rs generalizing f with
  | nil => rfl
  | cons r rs ih => simp [stampEnd, ih]

theorem setEndAt_eq_stampEnd (rs : List Range) (i t : Nat) :
    setEndAt rs i t = stampEnd (fun j => decide (j = i)) t rs := by
  induction rs generalizing i with
  | nil => rfl
  | cons r rs ih =>
    cases i with
    | zero =>
      simp only [setEndAt, stampEnd, decide_True, if_pos]
      rw [stampEnd_false _ _ _ (fun j => by simp)]
    | succ i =>
      simp only [setEndAt, stampEnd]
      rw [ih i]
      have hc := stampEnd_congr (fun j => decide (j = i))
        (fun j => decide (j + 1 = i + 1)) t rs (fun j => by simp)
      simp [hc]

theorem stampEnd_stampEnd (f g : Nat → Bool) (t : Nat) (rs : List Range) :
    stampEnd f t (stampEnd g t rs) = stampEnd (fun j => f j || g j) t rs := by
  induction rs generalizing f g with
  | nil => rfl
  | cons r rs ih =>
    cases hf : f 0 <;> cases hg : g 0 <;>
      simp [stampEnd, hf, hg, ih]

theorem extendOpen_eq_stampEnd (m : List (String × Nat)) (rs : List Range) (t : Nat) :
    extendOpen rs m t =
      stampEnd (fun j => m.any (fun p => decide (p.2 = j))) t rs := by
  induction m generalizing rs with
  | nil =>
    show rs = _
    rw [stampEnd_false _ _ _ (fun j => by simp)]
  | cons p m ih =>
    show extendOpen (setEndAt rs p.2 t) m t = _
    rw [ih, setEndAt_eq_stampEnd, stampEnd_stampEnd]
    exact stampEnd_congr _ _ _ _ (fun j => by
      simp [List.any_cons, Bool.or_comm, eq_comm])

theorem mem_stampEnd (f : Nat → Bool) (t : Nat) (rs : List Range) (x : Range)
    (h : x ∈ stampEnd f t rs) : ∃ r ∈ rs, x = r ∨ x = ⟨r.Label, r.Start, t⟩ := by
  induction rs generalizing f with
  | nil => simp [stampEnd] at h
  | cons r rs ih =>
    simp only [stampEnd, List.mem_cons] at h
    rcases h with h | h
    · refine ⟨r, by simp, ?_⟩
      by_cases hf : f 0 <;> simp [hf] at h <;> simp [h]
    · rcases ih _ h with ⟨r', hr', hx⟩
      exact ⟨r', by simp [hr'], hx⟩

theorem stampEnd_map_label (f : Nat → Bool) (t : Nat) (rs : List Range) :
    (stampEnd f t rs).map Range.Label = rs.map Range.Label := by
  induction rs generalizing f with
  | nil => rfl
  | cons r rs ih =>
    by_cases hf : f 0 <;> simp [stampEnd, hf, ih]

theorem stampEnd_take (f : Nat → Bool) (t : Nat) (rs : List Range) (n : Nat) :
    (stampEnd f t rs).take n = stampEnd f t (rs.take n) := by
  induction rs generalizing f n with
  | nil => simp [stampEnd]
  | cons r rs ih => cases n <;> simp [stampEnd, ih]

/-! ### Association-list lemmas -/

theorem lookupA_insertA_self (m : List (String × Nat)) (k : String) (v : Nat) :
    lookupA (insertA m k v) k = some v := by
  induction m with
  | nil => simp [insertA, lookupA]
  | cons p m ih =>
    obtain ⟨a, b⟩ := p
    by_cases h : a = k <;> simp [insertA, lookupA, h, ih]

theorem lookupA_insertA_ne (m : List (String × Nat)) (k k' : String) (v : Nat)
    (h : k' ≠ k) : lookupA (insertA m k v) k' = lookupA m k' := by
  induction m with
  | nil => simp [insertA, lookupA, Ne.symm h]
  | cons p m ih =>
    obtain ⟨a, b⟩ := p
    by_cases ha : a = k
    · subst ha
      simp [insertA, lookupA, Ne.symm h]
    · simp [insertA, lookupA, ha, ih]

theorem mem_insertA (m : List (String × Nat)) (k : String) (v : Nat)
    (p : String × Nat) : p ∈ insertA m k v → p = (k, v) ∨ p ∈ m := by
  induction m with
  | nil => intro h; simpa [insertA] using h
  | cons q m ih =>
    obtain ⟨a, b⟩ := q
    intro h
    by_cases ha : a = k
    · subst ha
      simp only [insertA, if_pos, List.mem_cons] at h
      rcases h with h | h
      · exact Or.inl h
      · exact Or.inr (List.mem_cons_of_mem _ h)
    · simp only [insertA, if_neg ha, List.mem_cons] at h
      rcases h with h | h
      · exact Or.inr (by simp [h])
      · rcases ih h with h' | h'
        · exact Or.inl h'
        · exact Or.inr (List.mem_cons_of_mem _ h')

theorem mem_keys_insertA (m : List (String × Nat)) (k : String) (v : Nat)
    (x : String) (h : x ∈ (insertA m k v).map Prod.fst) :
    x = k ∨ x ∈ m.map Prod.fst := by
  rcases List.mem_map.1 h with ⟨p, hp, hx⟩
  rcases mem_insertA m k v p hp with h' | h'
  · left; rw [← hx, h']
  · right; exact hx ▸ List.mem_map_of_mem _ h'

theorem keys_insertA_nodup (m : List (String × Nat)) (k : String) (v : Nat)
    (h : (m.map Prod.fst).Nodup) : ((insertA m k v).map Prod.fst).Nodup := by
  induction m with
  | nil => simp [insertA]
  | cons q m ih =>
    obtain ⟨a, b⟩ := q
    simp only [List.map_cons, List.nodup_cons] at h
    by_cases ha : a = k
    · subst ha
      simpa [insertA] using h
    · simp only [insertA, if_neg ha, List.map_cons, List.nodup_cons]
      refine ⟨fun hmem => ?_, ih h.2⟩
      rcases mem_keys_insertA m k v a hmem with h' | h'
      · exact ha h'
      · exact h.1 h'

theorem lookupA_eq_none_mem (m : List (String × Nat)) (ℓ : String) :
    lookupA m ℓ = none → ∀ v, (ℓ, v) ∉ m := by
  induction m with
  | nil => intro h v; simp
  | cons q m ih =>
    obtain ⟨a, b⟩ := q
    intro h v hv
    by_cases ha : a = ℓ
    · simp [lookupA, ha] at h
    · simp only [lookupA, if_neg ha] at h
      rcases List.mem_cons.1 hv with hv | hv
      · exact ha (by injection hv with h1 h2; exact h1.symm)
      · exact ih h v hv

theorem lookupA_mem (m : List (String × Nat)) (ℓ : String) (i : Nat) :
    lookupA m ℓ = some i → (ℓ, i) ∈ m := by
  induction m with
  | nil => intro h; simp [lookupA] at h
  | cons q m ih =>
    obtain ⟨a, b⟩ := q
    intro h
    by_cases ha : a = ℓ
    · subst ha
      simp [lookupA] at h
      simp [h]
    · simp only [lookupA, if_neg ha] at h
      exact List.mem_cons_of_mem _ (ih h)

theorem mem_keys_unique (m : List (String × Nat))
    (h : (m.map Prod.fst).Nodup) (k : String) (a b : Nat)
    (ha : (k, a) ∈ m) (hb : (k, b) ∈ m) : a = b := by
  induction m with
  | nil => simp at ha
  | cons q m ih =>
    obtain ⟨x, y⟩ := q
    simp only [List.map_cons, List.nodup_cons] at h
    rcases List.mem_cons.1 ha with ha' | ha' <;>
      rcases List.mem_cons.1 hb with hb' | hb'
    · injection ha' with h1 h2
      injection hb' with h3 h4
      omega
    · injection ha' with h1 h2
      exfalso
      exact h.1 (h1 ▸ List.mem_map_of_mem Prod.fst hb')
    · injection hb' with h1 h2
      exfalso
      exact h.1 (h1 ▸ List.mem_map_of_mem Prod.fst ha')
    · exact ih h.2 ha' hb'

/-! ### Filtering a track by label -/

theorem filterLabel_cons (ℓ : String) (r : Range) (rs : List Range) :
    filterLabel ℓ (r :: rs) =
      if r.Label = ℓ then r :: filterLabel ℓ rs else filterLabel ℓ rs := by
  by_cases h : r.Label = ℓ <;> simp [filterLabel, h]

theorem filterLabel_append (ℓ : String) (rs1 rs2 : List Range) :
    filterLabel ℓ (rs1 ++ rs2) = filterLabel ℓ rs1 ++ filterLabel ℓ rs2 := by
  simp [filterLabel]

theorem filterLabel_eq_nil (ℓ : String) (rs : List Range)
    (h : ∀ r ∈ rs, r.Label ≠ ℓ) : filterLabel ℓ rs = [] := by
  induction rs with
  | nil => rfl
  | cons r rs ih =>
    have hr : r.Label ≠ ℓ := h r (by simp)
    simp [filterLabel_cons, hr, ih (fun r' h' => h r' (by simp [h']))]

theorem filterLabel_stampEnd_of_ne (ℓ : String) (f : Nat → Bool) (t : Nat)
    (rs : List Range)
    (h : ∀ j r, rs.get? j = some r → f j = true → r.Label ≠ ℓ) :
    filterLabel ℓ (stampEnd f t rs) = filterLabel ℓ rs := by
  induction rs generalizing f with
  | nil => rfl
  | cons r rs ih =>
    have htail : ∀ j r', rs.get? j = some r' → f (j + 1) = true → r'.Label ≠ ℓ :=
      fun j r' hg hf => h (j + 1) r' (by simpa using hg) hf
    by_cases hf : f 0
    · have hr : r.Label ≠ ℓ := h 0 r (by simp) hf
      simp [stampEnd, hf, filterLabel_cons, hr, ih _ htail]
    · simp [stampEnd, hf, filterLabel_cons, ih _ htail]

theorem filterLabel_decompose (ℓ : String) (rs : List Range) (i : Nat) (r : Range)
    (hg : rs.get? i = some r) (hr : r.Label = ℓ)
    (hlast : ∀ j r', i < j → rs.get? j = some r' → r'.Label ≠ ℓ) :
    filterLabel ℓ rs = filterLabel ℓ (rs.take i) ++ [r] := by
  induction rs generalizing i with
  | nil => simp at hg
  | cons x rs ih =>
    cases i with
    | zero =>
      have hx : x = r := by simpa using hg
      subst hx
      have hrest : filterLabel ℓ rs = [] := by
        refine filterLabel_eq_nil _ _ (fun r' hr' => ?_)
        rcases List.mem_iff_get?.1 hr' with ⟨j, hj⟩
        exact hlast (j + 1) r' (by omega) (by simpa using hj)
      rw [filterLabel_cons, if_pos hr, hrest]
      simp [filterLabel]
    | succ i =>
      have hg' : rs.get? i = some r := by simpa using hg
      have hlast' : ∀ j r', i < j → rs.get? j = some r' → r'.Label ≠ ℓ :=
        fun j r' hj hgj => hlast (j + 1) r' (by omega) (by simpa using hgj)
      by_cases hx : x.Label = ℓ <;>
        simp [filterLabel_cons, hx, List.take_succ_cons, ih i hg' hlast']

/-! ### The open-map invariant -/

theorem get?_some_lt {α : Type} (l : List α) (n : Nat) (a : α)
    (h : l.get? n = some a) : n < l.length := by
  by_contra hn
  rw [List.get?_eq_none.2 (by omega)] at h
  exact Option.noConfusion h

theorem goodEntry_append_of_ne (rs : List Range) (x : Range) (p : String × Nat)
    (h : goodEntry rs p) (hx : x.Label ≠ p.1) : goodEntry (rs ++ [x]) p := by
  obtain ⟨r, hget, hlab, hlast⟩ := h
  have hlt : p.2 < rs.length := get?_some_lt _ _ _ hget
  refine ⟨r, ?_, hlab, ?_⟩
  · rw [List.get?_append hlt]
    exact hget
  · intro j r' hj hg
    by_cases hjl : j < rs.length
    · exact hlast j r' hj (by rwa [List.get?_append hjl] at hg)
    · rw [List.get?_append_right (by omega)] at hg
      rcases Nat.exists_eq_add_of_le (Nat.le_of_not_lt hjl) with ⟨d, hd⟩
      subst hd
      cases d with
      | zero =>
        simp at hg
        rw [← hg]
        exact hx
      | succ d => simp at hg

theorem goodEntry_stampEnd (f : Nat → Bool) (t : Nat) (rs : List Range)
    (p : String × Nat) (h : goodEntry rs p) : goodEntry (stampEnd f t rs) p := by
  obtain ⟨r, hget, hlab, hlast⟩ := h
  refine ⟨if f p.2 then ⟨r.Label, r.Start, t⟩ else r, ?_, ?_, ?_⟩
  · rw [stampEnd_get?, hget]
    rfl
  · by_cases hf : f p.2 <;> simp [hf, hlab]
  · intro j r' hj hg
    rw [stampEnd_get?] at hg
    cases hrs : rs.get? j with
    | none => rw [hrs] at hg; exact absurd hg (by simp)
    | some r0 =>
      rw [hrs] at hg
      have hl : r'.Label = r0.Label := by
        by_cases hf : f j <;> simp [hf] at hg <;> simp [← hg]
      rw [hl]
      exact hlast j r0 hj hrs

/-! ### Behaviour of the append loop -/

theorem addLoop_fst (openOld : List (String × Nat)) (t : Nat) :
    ∀ (ls : List String) (rs : List Range) (nx : List (String × Nat)),
    (addLoop openOld t (rs, nx) ls).1 =
      rs ++ (ls.filter (fun ℓ => (lookupA openOld ℓ).isNone)).map
        (fun ℓ => (⟨ℓ, t, t⟩ : Range)) := by
  intro ls
  induction ls with
  | nil => intro rs nx; simp [addLoop]
  | cons ℓ ls ih =>
    intro rs nx
    cases hl : lookupA openOld ℓ with
    | none =>
      simp only [addLoop, hl]
      rw [ih]
      simp [hl, List.filter_cons]
    | some i =>
      simp only [addLoop, hl]
      rw [ih]
      simp [hl, List.filter_cons]

theorem addLoop_lookup_notmem (openOld : List (String × Nat)) (t : Nat) :
    ∀ (ls : List String) (rs : List Range) (nx : List (String × Nat)) (ℓ : String),
    ℓ ∉ ls → lookupA (addLoop openOld t (rs, nx) ls).2 ℓ = lookupA nx ℓ := by
  intro ls
  induction ls with
  | nil => intro rs nx ℓ h; rfl
  | cons k ls ih =>
    intro rs nx ℓ h
    have hk : ℓ ≠ k := fun e => h (by simp [e])
    have hls : ℓ ∉ ls := fun e => h (by simp [e])
    cases hl : lookupA openOld k with
    | none =>
      simp only [addLoop, hl]
      rw [ih _ _ _ hls, lookupA_insertA_ne _ _ _ _ hk]
    | some i =>
      simp only [addLoop, hl]
      rw [ih _ _ _ hls, lookupA_insertA_ne _ _ _ _ hk]

theorem addLoop_lookup_cont (openOld : List (String × Nat)) (t : Nat) :
    ∀ (ls : List String) (rs : List Range) (nx : List (String × Nat))
      (ℓ : String) (i : Nat), ls.Nodup → ℓ ∈ ls → lookupA openOld ℓ = some i →
    lookupA (addLoop openOld t (rs, nx) ls).2 ℓ = some i := by
  intro ls
  induction ls with
  | nil => intro rs nx ℓ i _ h; simp at h
  | cons k ls ih =>
    intro rs nx ℓ i hnd hmem hlook
    rcases List.mem_cons.1 hmem with hq | hq
    · subst hq
      simp only [addLoop, hlook]
      rw [addLoop_lookup_notmem _ _ _ _ _ _ ((List.nodup_cons.1 hnd).1),
        lookupA_insertA_self]
    · have hne : ℓ ≠ k := by
        intro e
        exact (List.nodup_cons.1 hnd).1 (e ▸ hq)
      cases hl : lookupA openOld k with
      | none =>
        simp only [addLoop, hl]
        exact ih _ _ _ _ (List.nodup_cons.1 hnd).2 hq hlook
      | some j =>
        simp only [addLoop, hl]
        exact ih _ _ _ _ (List.nodup_cons.1 hnd).2 hq hlook

theorem addLoop_new (openOld : List (String × Nat)) (t : Nat) :
    ∀ (ls : List String) (rs : List Range) (nx : List (String × Nat)) (ℓ : String),
      ls.Nodup → ℓ ∈ ls → lookupA openOld ℓ = none →
    ∃ j, lookupA (addLoop openOld t (rs, nx) ls).2 ℓ = some j ∧
      (addLoop openOld t (rs, nx) ls).1.get? j = some ⟨ℓ, t, t⟩ ∧
      filterLabel ℓ ((addLoop openOld t (rs, nx) ls).1.take j) = filterLabel ℓ rs ∧
      ∀ j' r', j < j' → (addLoop openOld t (rs, nx) ls).1.get? j' = some r' →
        r'.Label ≠ ℓ := by
  intro ls
  induction ls with
  | nil => intro rs nx ℓ _ h; simp at h
  | cons k ls ih =>
    intro rs nx ℓ hnd hmem hlook
    rcases List.mem_cons.1 hmem with hq | hq
    · subst hq
      simp only [addLoop, hlook]
      have hnotin : ℓ ∉ ls := (List.nodup_cons.1 hnd).1
      refine ⟨rs.length, ?_, ?_, ?_, ?_⟩
      · rw [addLoop_lookup_notmem _ _ _ _ _ _ hnotin, lookupA_insertA_self]
      · rw [addLoop_fst, List.append_assoc, List.get?_append_right (le_refl _)]
        simp
      · rw [addLoop_fst, List.append_assoc, List.take_left]
      · intro j' r' hj hg
        rw [addLoop_fst, List.append_assoc,
          List.get?_append_right (by omega)] at hg
        rcases Nat.exists_eq_add_of_lt hj with ⟨d, hd⟩
        subst hd
        have hidx : rs.length + d + 1 - rs.length = d + 1 := by omega
        rw [hidx, List.singleton_append, List.get?_cons_succ] at hg
        have hmem' := List.get?_mem hg
        rcases List.mem_map.1 hmem' with ⟨ℓ', hℓ', he⟩
        have : ℓ' ∈ ls := List.mem_of_mem_filter hℓ'
        intro hc
        apply hnotin
        rw [← he] at hc
        simp at hc
        rwa [hc] at this
    · have hne : ℓ ≠ k := by
        intro e
        exact (List.nodup_cons.1 hnd).1 (e ▸ hq)
      cases hl : lookupA openOld k with
      | none =>
        simp only [addLoop, hl]
        rcases ih (rs ++ [⟨k, t, t⟩]) (insertA nx k rs.length) ℓ
          (List.nodup_cons.1 hnd).2 hq hlook with ⟨j, h1, h2, h3, h4⟩
        refine ⟨j, h1, h2, ?_, h4⟩
        rw [h3, filterLabel_append, filterLabel_eq_nil ℓ [⟨k, t, t⟩]
          (by intro r hr; simp at hr; simp [hr, Ne.symm hne])]
        simp
      | some i =>
        simp only [addLoop, hl]
        exact ih rs (insertA nx k i) ℓ (List.nodup_cons.1 hnd).2 hq hlook

theorem addLoop_good (openOld : List (String × Nat)) (t : Nat) :
    ∀ (ls : List String) (rs : List Range) (nx : List (String × Nat)),
    ls.Nodup →
    (∀ p ∈ nx, goodEntry rs p) →
    (nx.map Prod.fst).Nodup →
    (∀ p ∈ nx, p.1 ∉ ls) →
    (∀ k i, lookupA openOld k = some i → k ∈ ls → goodEntry rs (k, i)) →
    (∀ p ∈ (addLoop openOld t (rs, nx) ls).2,
      goodEntry (addLoop openOld t (rs, nx) ls).1 p) ∧
    ((addLoop openOld t (rs, nx) ls).2.map Prod.fst).Nodup := by
  intro ls
  induction ls with
  | nil =>
    intro rs nx _ h1 h2 _ _
    exact ⟨h1, h2⟩
  | cons ℓ ls ih =>
    intro rs nx hnd h1 h2 h3 h4
    have hnd' := List.nodup_cons.1 hnd
    cases hl : lookupA openOld ℓ with
    | none =>
      simp only [addLoop, hl]
      apply ih
      · exact hnd'.2
      · intro p hp
        rcases mem_insertA _ _ _ _ hp with hp' | hp'
        · subst hp'
          refine ⟨⟨ℓ, t, t⟩, List.get?_concat_length rs _, rfl, ?_⟩
          intro j r' hj hg
          have hlt := get?_some_lt _ _ _ hg
          rw [List.length_append] at hlt
          simp at hlt
          omega
        · refine goodEntry_append_of_ne _ _ _ (h1 p hp') ?_
          intro e
          have e' : ℓ = p.1 := e
          exact (h3 p hp') (by rw [← e']; simp)
      · exact keys_insertA_nodup _ _ _ h2
      · intro p hp
        rcases mem_insertA _ _ _ _ hp with hp' | hp'
        · subst hp'
          exact hnd'.1
        · intro hmem
          exact (h3 p hp') (List.mem_cons_of_mem _ hmem)
      · intro k i hki hkls
        refine goodEntry_append_of_ne _ _ _
          (h4 k i hki (List.mem_cons_of_mem _ hkls)) ?_
        intro e
        have e' : ℓ = k := e
        rw [e'] at hl
        rw [hl] at hki
        exact Option.noConfusion hki
    | some i =>
      simp only [addLoop, hl]
      apply ih
      · exact hnd'.2
      · intro p hp
        rcases mem_insertA _ _ _ _ hp with hp' | hp'
        · subst hp'
          exact h4 ℓ i hl (by simp)
        · exact h1 p hp'
      · exact keys_insertA_nodup _ _ _ h2
      · intro p hp
        rcases mem_insertA _ _ _ _ hp with hp' | hp'
        · subst hp'
          exact hnd'.1
        · intro hmem
          exact (h3 p hp') (List.mem_cons_of_mem _ hmem)
      · intro k j hkj hkls
        exact h4 k j hkj (List.mem_cons_of_mem _ hkls)

theorem multiStep_ranges (st : MultiState) (t : Nat) (ls : List String) :
    (multiStep st t ls).ranges =
      (addLoop st.openm t (extendOpen st.ranges st.openm t, []) ls).1 := rfl

theorem multiStep_openm (st : MultiState) (t : Nat) (ls : List String) :
    (multiStep st t ls).openm =
      (addLoop st.openm t (extendOpen st.ranges st.openm t, []) ls).2 := rfl

theorem multiStep_good (st : MultiState) (t : Nat) (ls : List String)
    (hst : goodState st) (hnd : ls.Nodup) : goodState (multiStep st t ls) := by
  have h4 : ∀ k i, lookupA st.openm k = some i → k ∈ ls →
      goodEntry (extendOpen st.ranges st.openm t) (k, i) := by
    intro k i hki _
    have hge := hst.1 _ (lookupA_mem _ _ _ hki)
    rw [extendOpen_eq_stampEnd]
    exact goodEntry_stampEnd _ _ _ _ hge
  have h := addLoop_good st.openm t ls (extendOpen st.ranges st.openm t) []
    hnd (by simp) (by simp) (by simp) h4
  exact ⟨h.1, h.2⟩

theorem multiFold_nil (st : MultiState) : multiFold st [] = st := rfl

theorem multiFold_cons (st : MultiState) (p : Nat × List String)
    (ps : List (Nat × List String)) :
    multiFold st (p :: ps) = multiFold (multiStep st p.1 p.2) ps := rfl

/-- Ranges at positions stamped by the extend loop have open labels, hence
not `ℓ` when `ℓ` is not open. -/
theorem stamped_label_ne (st : MultiState) (hst : goodState st) (ℓ : String)
    (hl : lookupA st.openm ℓ = none) :
    ∀ j r0, st.ranges.get? j = some r0 →
      (st.openm.any (fun p => decide (p.2 = j))) = true → r0.Label ≠ ℓ := by
  intro j r0 hg hpred
  rcases List.any_eq_true.1 hpred with ⟨q, hq, hq2⟩
  have hj : q.2 = j := of_decide_eq_true hq2
  obtain ⟨r1, hget1, hlab1, _⟩ := hst.1 q hq
  rw [hj, hg] at hget1
  injection hget1 with he
  rw [← he] at hlab1
  rw [hlab1]
  intro hc
  exact lookupA_eq_none_mem _ _ hl q.2 (by rw [← hc]; exact hq)

/-- Same as `stamped_label_ne` when `ℓ` is open at index `i`: every other
stamped position carries a label other than `ℓ`. -/
theorem stamped_label_ne_of_open (st : MultiState) (hst : goodState st)
    (ℓ : String) (i : Nat) (hl : lookupA st.openm ℓ = some i) :
    ∀ j r0, st.ranges.get? j = some r0 → j ≠ i →
      (st.openm.any (fun p => decide (p.2 = j))) = true → r0.Label ≠ ℓ := by
  intro j r0 hg hji hpred
  rcases List.any_eq_true.1 hpred with ⟨q, hq, hq2⟩
  have hj : q.2 = j := of_decide_eq_true hq2
  obtain ⟨r1, hget1, hlab1, _⟩ := hst.1 q hq
  rw [hj, hg] at hget1
  injection hget1 with he
  rw [← he] at hlab1
  rw [hlab1]
  intro hc
  apply hji
  rw [← hj]
  exact mem_keys_unique st.openm hst.2 ℓ q.2 i
    (by rw [← hc]; exact hq) (lookupA_mem _ _ _ hl)

/-- Freshly appended ranges never carry a label outside the scanned list. -/
theorem filterLabel_news (openOld : List (String × Nat)) (t : Nat)
    (ls : List String) (ℓ : String) (hmem : ℓ ∉ ls) :
    filterLabel ℓ ((ls.filter (fun ℓ => (lookupA openOld ℓ).isNone)).map
      (fun ℓ => (⟨ℓ, t, t⟩ : Range))) = [] := by
  refine filterLabel_eq_nil _ _ (fun r hr => ?_)
  rcases List.mem_map.1 hr with ⟨ℓ', hℓ', he⟩
  have hin : ℓ' ∈ ls := List.mem_of_mem_filter hℓ'
  rw [← he]
  intro hc
  have hc' : ℓ' = ℓ := hc
  rw [hc'] at hin
  exact hmem hin

/-- The open `ℓ`-range after the extend loop. -/
theorem extendOpen_get?_open (st : MultiState) (hst : goodState st)
    (ℓ : String) (i : Nat) (r : Range) (hl : lookupA st.openm ℓ = some i)
    (hget : st.ranges.get? i = some r) (t : Nat) :
    (extendOpen st.ranges st.openm t).get? i = some ⟨r.Label, r.Start, t⟩ := by
  rw [extendOpen_eq_stampEnd, stampEnd_get?, hget]
  have hpred : (st.openm.any (fun p => decide (p.2 = i))) = true :=
    List.any_eq_true.2 ⟨(ℓ, i), lookupA_mem _ _ _ hl, by simp⟩
  simp [hpred]

/-- Main correspondence for the multi-label tracks: when every snapshot's
label list is duplicate-free, the `ℓ`-ranges of the final track are the
closed `ℓ`-ranges of the initial state followed by one range per maximal
run of `ℓ` in the remaining label sequence, as described by `runsGo`. -/
theorem multiFold_filter (ps : List (Nat × List String)) :
    ∀ st : MultiState, (∀ p ∈ ps, p.2.Nodup) → goodState st → ∀ ℓ : String,
    filterLabel ℓ (multiFold st ps).ranges = runsFrom st ℓ ps := by
  induction ps with
  | nil =>
    intro st _ hst ℓ
    rw [multiFold_nil, runsFrom]
    cases hl : lookupA st.openm ℓ with
    | none => simp [runsGo]
    | some i =>
      obtain ⟨r, hget, hlab, hlast⟩ := hst.1 _ (lookupA_mem _ _ _ hl)
      have hget2 : st.ranges.get? i = some r := hget
      have hlab2 : r.Label = ℓ := hlab
      have hlast2 : ∀ j r', i < j → st.ranges.get? j = some r' →
          r'.Label ≠ ℓ := hlast
      simp only [hget2, runsGo]
      exact filterLabel_decompose ℓ st.ranges i r hget2 hlab2 hlast2
  | cons p ps ih =>
    obtain ⟨t, ls⟩ := p
    intro st hnd hst ℓ
    have hndls : ls.Nodup := hnd (t, ls) (by simp)
    have hndrest : ∀ q ∈ ps, q.2.Nodup := fun q hq => hnd q (by simp [hq])
    have hst' : goodState (multiStep st t ls) := multiStep_good _ _ _ hst hndls
    rw [multiFold_cons, ih _ hndrest hst']
    by_cases hmem : ℓ ∈ ls
    · cases hl : lookupA st.openm ℓ with
      | none =>
        obtain ⟨j, hj1, hj2, hj3, hj4⟩ := addLoop_new st.openm t ls
          (extendOpen st.ranges st.openm t) [] ℓ hndls hmem hl
        have hj1' : lookupA (multiStep st t ls).openm ℓ = some j := by
          rw [multiStep_openm]; exact hj1
        have hj2' : (multiStep st t ls).ranges.get? j = some ⟨ℓ, t, t⟩ := by
          rw [multiStep_ranges]; exact hj2
        have hj3' : filterLabel ℓ ((multiStep st t ls).ranges.take j) =
            filterLabel ℓ st.ranges := by
          rw [multiStep_ranges, hj3, extendOpen_eq_stampEnd]
          exact filterLabel_stampEnd_of_ne _ _ _ _
            (stamped_label_ne st hst ℓ hl)
        simp only [runsFrom, hj1', hj2', hj3', hl, runsGo, if_pos hmem]
      | some i =>
        obtain ⟨r, hget, hlab, hlast⟩ := hst.1 _ (lookupA_mem _ _ _ hl)
        have hilt : i < st.ranges.length := get?_some_lt _ _ _ hget
        have hlen1 : (extendOpen st.ranges st.openm t).length =
            st.ranges.length := by
          rw [extendOpen_eq_stampEnd, stampEnd_length]
        have hcont : lookupA (multiStep st t ls).openm ℓ = some i := by
          rw [multiStep_openm]
          exact addLoop_lookup_cont st.openm t ls
            (extendOpen st.ranges st.openm t) [] ℓ i hndls hmem hl
        have hget' : (multiStep st t ls).ranges.get? i = some ⟨ℓ, r.Start, t⟩ := by
          rw [multiStep_ranges, addLoop_fst, List.get?_append (by omega),
            extendOpen_get?_open st hst ℓ i r hl hget t, hlab]
        have htake : filterLabel ℓ ((multiStep st t ls).ranges.take i) =
            filterLabel ℓ (st.ranges.take i) := by
          rw [multiStep_ranges, addLoop_fst,
            List.take_append_of_le_length (by omega),
            extendOpen_eq_stampEnd, stampEnd_take]
          refine filterLabel_stampEnd_of_ne _ _ _ _ ?_
          intro j r0 hg hpred
          have hjlt : j < i := by
            have := get?_some_lt _ _ _ hg
            rw [List.length_take] at this
            omega
          have hg' : st.ranges.get? j = some r0 := by
            rw [← List.get?_take hjlt]
            exact hg
          exact stamped_label_ne_of_open st hst ℓ i hl j r0 hg' (by omega) hpred
        simp only [runsFrom, hcont, hget', htake, hl, hget, runsGo, if_pos hmem]
    · have hnone : lookupA (multiStep st t ls).openm ℓ = none := by
        rw [multiStep_openm,
          addLoop_lookup_notmem st.openm t ls _ [] ℓ hmem]
        rfl
      have hsplit : filterLabel ℓ (multiStep st t ls).ranges =
          filterLabel ℓ (extendOpen st.ranges st.openm t) := by
        rw [multiStep_ranges, addLoop_fst, filterLabel_append,
          filterLabel_news st.openm t ls ℓ hmem, List.append_nil]
      cases hl : lookupA st.openm ℓ with
      | none =>
        have hfe : filterLabel ℓ (extendOpen st.ranges st.openm t) =
            filterLabel ℓ st.ranges := by
          rw [extendOpen_eq_stampEnd]
          exact filterLabel_stampEnd_of_ne _ _ _ _
            (stamped_label_ne st hst ℓ hl)
        simp only [runsFrom, hnone, hsplit, hfe, hl, runsGo, if_neg hmem]
      | some i =>
        obtain ⟨r, hget, hlab, hlast⟩ := hst.1 _ (lookupA_mem _ _ _ hl)
        have hilt : i < st.ranges.length := get?_some_lt _ _ _ hget
        have hopen := extendOpen_get?_open st hst ℓ i r hl hget t
        rw [hlab] at hopen
        have hlast1 : ∀ j r', i < j →
            (extendOpen st.ranges st.openm t).get? j = some r' →
            r'.Label ≠ ℓ := by
          intro j r' hj hg
          rw [extendOpen_eq_stampEnd, stampEnd_get?] at hg
          cases hrs : st.ranges.get? j with
          | none => rw [hrs] at hg; exact absurd hg (by simp)
          | some r0 =>
            rw [hrs] at hg
            have hlr : r'.Label = r0.Label := by
              by_cases hf : (st.openm.any (fun p => decide (p.2 = j))) = true <;>
                simp [hf] at hg <;> simp [← hg]
            rw [hlr]
            exact hlast j r0 hj hrs
        have hdec : filterLabel ℓ (extendOpen st.ranges st.openm t) =
            filterLabel ℓ ((extendOpen st.ranges st.openm t).take i) ++
              [⟨ℓ, r.Start, t⟩] :=
          filterLabel_decompose ℓ _ i _ hopen rfl hlast1
        have htake1 : filterLabel ℓ ((extendOpen st.ranges st.openm t).take i) =
            filterLabel ℓ (st.ranges.take i) := by
          rw [extendOpen_eq_stampEnd, stampEnd_take]
          refine filterLabel_stampEnd_of_ne _ _ _ _ ?_
          intro j r0 hg hpred
          have hjlt : j < i := by
            have := get?_some_lt _ _ _ hg
            rw [List.length_take] at this
            omega
          have hg' : st.ranges.get? j = some r0 := by
            rw [← List.get?_take hjlt]
            exact hg
          exact stamped_label_ne_of_open st hst ℓ i hl j r0 hg' (by omega) hpred
        simp only [runsFrom, hnone, hsplit, hdec, htake1, hl, hget, runsGo,
          if_neg hmem, List.append_assoc, List.singleton_append]

/-! ### Range bounds: `Start ≤ End` under non-decreasing times -/

theorem multiStep_bounds (st : MultiState) (t T : Nat) (ls : List String)
    (hT : T ≤ t) (h : ∀ r ∈ st.ranges, r.Start ≤ r.End ∧ r.End ≤ T) :
    ∀ r ∈ (multiStep st t ls).ranges, r.Start ≤ r.End ∧ r.End ≤ t := by
  intro r hr
  rw [multiStep_ranges, addLoop_fst] at hr
  rcases List.mem_append.1 hr with hr | hr
  · rw [extendOpen_eq_stampEnd] at hr
    rcases mem_stampEnd _ _ _ _ hr with ⟨r0, hr0, hcase⟩
    rcases h r0 hr0 with ⟨h1, h2⟩
    rcases hcase with hcase | hcase
    · subst hcase
      exact ⟨h1, by omega⟩
    · subst hcase
      refine ⟨?_, le_refl t⟩
      show r0.Start ≤ t
      omega
  · rcases List.mem_map.1 hr with ⟨ℓ', _, he⟩
    rw [← he]
    exact ⟨le_refl t, le_refl t⟩

theorem multiFold_bounds (ps : List (Nat × List String)) :
    ∀ (st : MultiState) (T : Nat),
    (∀ r ∈ st.ranges, r.Start ≤ r.End ∧ r.End ≤ T) →
    List.Chain (· ≤ ·) T (ps.map Prod.fst) →
    ∀ r ∈ (multiFold st ps).ranges, r.Start ≤ r.End := by
  induction ps with
  | nil =>
    intro st T h _ r hr
    exact (h r hr).1
  | cons p ps ih =>
    obtain ⟨t, ls⟩ := p
    intro st T h hch r hr
    rw [multiFold_cons] at hr
    rcases List.chain_cons.1 hch with ⟨hTt, hch'⟩
    exact ih (multiStep st t ls) t (multiStep_bounds st t T ls hTt h) hch' r hr

theorem mem_setEndAt (rs : List Range) (i t : Nat) (x : Range)
    (h : x ∈ setEndAt rs i t) : ∃ r ∈ rs, x = r ∨ x = ⟨r.Label, r.Start, t⟩ := by
  rw [setEndAt_eq_stampEnd] at h
  exact mem_stampEnd _ _ _ _ h

theorem activeStep_bounds (st : ActiveState) (t T : Nat) (act : Option String)
    (hT : T ≤ t) (h : ∀ r ∈ st.ranges, r.Start ≤ r.End ∧ r.End ≤ T) :
    ∀ r ∈ (activeStep st t act).ranges, r.Start ≤ r.End ∧ r.End ≤ t := by
  have hold : ∀ r ∈ st.ranges, r.Start ≤ r.End ∧ r.End ≤ t := by
    intro r hr
    rcases h r hr with ⟨h1, h2⟩
    exact ⟨h1, by omega⟩
  have hset : ∀ i, ∀ r ∈ setEndAt st.ranges i t, r.Start ≤ r.End ∧ r.End ≤ t := by
    intro i r hr
    rcases mem_setEndAt _ _ _ _ hr with ⟨r0, hr0, hcase⟩
    rcases h r0 hr0 with ⟨h1, h2⟩
    rcases hcase with hcase | hcase
    · subst hcase
      exact ⟨h1, by omega⟩
    · subst hcase
      refine ⟨?_, le_refl t⟩
      show r0.Start ≤ t
      omega
  intro r hr
  cases act with
  | none => exact hold r hr
  | some ℓ =>
    cases hLA : st.lastActive with
    | none =>
      simp only [activeStep, hLA] at hr
      rcases List.mem_append.1 hr with hr | hr
      · exact hold r hr
      · simp at hr
        simp [hr]
    | some i =>
      simp only [activeStep, hLA] at hr
      cases hget : st.ranges.get? i with
      | none =>
        simp only [hget] at hr
        rcases List.mem_append.1 hr with hr | hr
        · exact hold r hr
        · simp at hr
          simp [hr]
      | some r0 =>
        simp only [hget] at hr
        by_cases hlab : r0.Label = ℓ
        · simp only [if_pos hlab] at hr
          exact hset i r hr
        · simp only [if_neg hlab] at hr
          rcases List.mem_append.1 hr with hr | hr
          · exact hset i r hr
          · simp at hr
            simp [hr]

theorem activeFold_nil (st : ActiveState) : activeFold st [] = st := rfl

theorem activeFold_cons (st : ActiveState) (x : Nat × Option String)
    (xs : List (Nat × Option String)) :
    activeFold st (x :: xs) = activeFold (activeStep st x.1 x.2) xs := rfl

theorem activeFold_bounds (xs : List (Nat × Option String)) :
    ∀ (st : ActiveState) (T : Nat),
    (∀ r ∈ st.ranges, r.Start ≤ r.End ∧ r.End ≤ T) →
    List.Chain (· ≤ ·) T (xs.map Prod.fst) →
    ∀ r ∈ (activeFold st xs).ranges, r.Start ≤ r.End := by
  induction xs with
  | nil =>
    intro st T h _ r hr
    exact (h r hr).1
  | cons x xs ih =>
    obtain ⟨t, act⟩ := x
    intro st T h hch r hr
    rw [activeFold_cons] at hr
    rcases List.chain_cons.1 hch with ⟨hTt, hch'⟩
    exact ih (activeStep st t act) t (activeStep_bounds st t T act hTt h) hch' r hr

/-! ### Adjacent labels on the `Active` track -/

theorem setEndAt_map_label (rs : List Range) (i t : Nat) :
    (setEndAt rs i t).map Range.Label = rs.map Range.Label := by
  rw [setEndAt_eq_stampEnd]
  exact stampEnd_map_label _ _ _

theorem activeFold_chain (xs : List (Nat × Option String)) :
    ∀ st : ActiveState, (∀ x ∈ xs, x.2.isSome = true) →
    List.Chain' (· ≠ ·) (st.ranges.map Range.Label) →
    (match st.lastActive with
     | some i => i + 1 = st.ranges.length
     | none => st.ranges = []) →
    List.Chain' (· ≠ ·) ((activeFold st xs).ranges.map Range.Label) ∧
    (match (activeFold st xs).lastActive with
     | some i => i + 1 = (activeFold st xs).ranges.length
     | none => (activeFold st xs).ranges = []) := by
  induction xs with
  | nil =>
    intro st _ h1 h2
    exact ⟨h1, h2⟩
  | cons x xs ih =>
    obtain ⟨t, act⟩ := x
    intro st hall h1 h2
    obtain ⟨ℓ, hact⟩ := Option.isSome_iff_exists.1 (hall (t, act) (by simp))
    subst hact
    rw [activeFold_cons]
    have hall' : ∀ x ∈ xs, x.2.isSome = true := fun x hx => hall x (by simp [hx])
    cases hLA : st.lastActive with
    | none =>
      have hre : st.ranges = [] := by
        rw [hLA] at h2
        exact h2
      have hstep : activeStep st t (some ℓ) =
          ⟨st.ranges ++ [⟨ℓ, t, t⟩], some st.ranges.length⟩ := by
        simp [activeStep, hLA]
      rw [hstep]
      apply ih _ hall'
      · simp [hre]
      · simp [hre]
    | some i =>
      have hi : i + 1 = st.ranges.length := by
        rw [hLA] at h2
        exact h2
      obtain ⟨r0, hget⟩ : ∃ r0, st.ranges.get? i = some r0 := by
        cases hg : st.ranges.get? i with
        | none =>
          rw [List.get?_eq_none] at hg
          omega
        | some r0 => exact ⟨r0, rfl⟩
      have hgetE : st.ranges[i]? = some r0 := by
        rw [← List.get?_eq_getElem?]
        exact hget
      by_cases hlab : r0.Label = ℓ
      · have hstep : activeStep st t (some ℓ) =
            ⟨setEndAt st.ranges i t, some i⟩ := by
          simp [activeStep, hLA, hgetE, hlab]
        rw [hstep]
        apply ih _ hall'
        · show List.Chain' (· ≠ ·) ((setEndAt st.ranges i t).map Range.Label)
          rw [setEndAt_map_label]
          exact h1
        · show i + 1 = (setEndAt st.ranges i t).length
          rw [setEndAt_length]
          exact hi
      · have hstep : activeStep st t (some ℓ) =
            ⟨setEndAt st.ranges i t ++ [⟨ℓ, t, t⟩],
              some (setEndAt st.ranges i t).length⟩ := by
          simp [activeStep, hLA, hgetE, hlab]
        rw [hstep]
        apply ih _ hall'
        · show List.Chain' (· ≠ ·)
            ((setEndAt st.ranges i t ++ [(⟨ℓ, t, t⟩ : Range)]).map Range.Label)
          rw [List.map_append, setEndAt_map_label, List.chain'_append]
          refine ⟨h1, List.chain'_singleton _, ?_⟩
          intro x hx y hy
          simp at hy
          have hxl : x = r0.Label := by
            rw [List.getLast?_eq_get?, List.length_map] at hx
            have hix : (st.ranges.map Range.Label).get? (st.ranges.length - 1) =
                some r0.Label := by
              have hsub : st.ranges.length - 1 = i := by omega
              rw [hsub, List.get?_map, hget]
              rfl
            rw [hix] at hx
            have hx' : r0.Label = x := by simpa using hx
            exact hx'.symm
          subst hy
          rw [hxl]
          exact hlab
        · show (setEndAt st.ranges i t).length + 1 =
            (setEndAt st.ranges i t ++ [(⟨ℓ, t, t⟩ : Range)]).length
          simp

/-! ### Constant active label (coalescing) and unresolvable actives -/

theorem activeFold_const (ℓ : String) :
    ∀ (xs : List (Nat × Option String)) (s e : Nat),
    (∀ x ∈ xs, x.2 = some ℓ) →
    activeFold ⟨[⟨ℓ, s, e⟩], some 0⟩ xs =
      ⟨[⟨ℓ, s, (xs.map Prod.fst).getLastD e⟩], some 0⟩ := by
  intro xs
  induction xs with
  | nil => intro s e _; rfl
  | cons x xs ih =>
    obtain ⟨t, act⟩ := x
    intro s e hall
    have hact : act = some ℓ := hall (t, act) (by simp)
    subst hact
    rw [activeFold_cons]
    have hstep : activeStep ⟨[⟨ℓ, s, e⟩], some 0⟩ t (some ℓ) =
        ⟨[⟨ℓ, s, t⟩], some 0⟩ := by
      simp [activeStep, setEndAt]
    rw [hstep, ih s t (fun x hx => hall x (by simp [hx]))]
    rw [List.map_cons, List.getLastD_cons]

theorem activeFold_none_ranges (xs : List (Nat × Option String)) :
    ∀ st : ActiveState, (∀ x ∈ xs, x.2 = none) →
    (activeFold st xs).ranges = st.ranges := by
  induction xs with
  | nil => intro st _; rfl
  | cons x xs ih =>
    obtain ⟨t, act⟩ := x
    intro st hall
    have hact : act = none := hall (t, act) (by simp)
    subst hact
    rw [activeFold_cons]
    rw [ih _ (fun x hx => hall x (by simp [hx]))]
    rfl

/-! ### Projections of the combined snapshot loop -/

theorem tlFold_act (lf : Option Window → String) :
    ∀ (snaps : List Snapshot) (st : TLState),
    (snaps.foldl (tlStep lf) st).act = activeFold st.act (actPairs lf snaps) := by
  intro snaps
  induction snaps with
  | nil => intro st; rfl
  | cons s snaps ih =>
    intro st
    rw [List.foldl_cons, ih]
    rfl

theorem tlFold_vis (lf : Option Window → String) :
    ∀ (snaps : List Snapshot) (st : TLState),
    (snaps.foldl (tlStep lf) st).vis = multiFold st.vis (visPairs lf snaps) := by
  intro snaps
  induction snaps with
  | nil => intro st; rfl
  | cons s snaps ih =>
    intro st
    rw [List.foldl_cons, ih]
    rfl

theorem tlFold_oth (lf : Option Window → String) :
    ∀ (snaps : List Snapshot) (st : TLState),
    (snaps.foldl (tlStep lf) st).oth = multiFold st.oth (allPairs lf snaps) := by
  intro snaps
  induction snaps with
  | nil => intro st; rfl
  | cons s snaps ih =>
    intro st
    rw [List.foldl_cons, ih]
    rfl

/-- The tracks of a reconstructed timeline, one per-track machine each. -/
theorem NewTimeline_eq (stream : Stream) (lf : Option Window → String)
    (s0 : Snapshot) (rest : List Snapshot)
    (h : stream.Snapshots = s0 :: rest) :
    NewTimeline stream lf = some
      ⟨s0.Time, ((s0 :: rest).getLastD s0).Time,
       (activeFold ⟨[], none⟩ (actPairs lf (s0 :: rest))).ranges,
       (multiFold ⟨[], []⟩ (visPairs lf (s0 :: rest))).ranges,
       (multiFold ⟨[], []⟩ (allPairs lf (s0 :: rest))).ranges⟩ := by
  rcases stream with ⟨snaps⟩
  simp only at h
  subst h
  simp only [NewTimeline]
  rw [tlFold_act, tlFold_vis, tlFold_oth]

theorem getLastD_time (snaps : List Snapshot) :
    ∀ d : Snapshot,
    (snaps.map Snapshot.Time).getLastD d.Time = (snaps.getLastD d).Time := by
  induction snaps with
  | nil => intro d; rfl
  | cons a l ih =>
    intro d
    rw [List.map_cons, List.getLastD_cons, List.getLastD_cons, ih a]

theorem actPairs_times (lf : Option Window → String) (snaps : List Snapshot) :
    (actPairs lf snaps).map Prod.fst = snaps.map Snapshot.Time := by
  simp [actPairs]

theorem visPairs_times (lf : Option Window → String) (snaps : List Snapshot) :
    (visPairs lf snaps).map Prod.fst = snaps.map Snapshot.Time := by
  simp [visPairs]

theorem allPairs_times (lf : Option Window → String) (snaps : List Snapshot) :
    (allPairs lf snaps).map Prod.fst = snaps.map Snapshot.Time := by
  simp [allPairs]

/-! ### Per-label run characterisation of the multi-label tracks -/

theorem track_runs (stream : Stream) (lf : Option Window → String)
    (tl : Timeline) (ℓ : String)
    (htl : NewTimeline stream lf = some tl) :
    ((∀ snap ∈ stream.Snapshots, (visibleLabels lf snap).Nodup) →
      filterLabel ℓ tl.Visible = runsGo ℓ none (visPairs lf stream.Snapshots)) ∧
    ((∀ snap ∈ stream.Snapshots, (allLabels lf snap).Nodup) →
      filterLabel ℓ tl.All = runsGo ℓ none (allPairs lf stream.Snapshots)) := by
  rcases stream with ⟨snaps⟩
  cases snaps with
  | nil => simp [NewTimeline] at htl
  | cons s0 rest =>
    have heq := NewTimeline_eq ⟨s0 :: rest⟩ lf s0 rest rfl
    rw [htl] at heq
    injection heq with heq
    subst heq
    have hinit : goodState ⟨[], []⟩ := ⟨by simp, by simp⟩
    constructor
    · intro hnd
      have hps : ∀ p ∈ visPairs lf (s0 :: rest), p.2.Nodup := by
        intro p hp
        rcases List.mem_map.1 hp with ⟨s, hs, he⟩
        rw [← he]
        exact hnd s hs
      show filterLabel ℓ (multiFold ⟨[], []⟩ (visPairs lf (s0 :: rest))).ranges = _
      rw [multiFold_filter _ _ hps hinit ℓ]
      simp [runsFrom, lookupA, filterLabel]
    · intro hnd
      have hps : ∀ p ∈ allPairs lf (s0 :: rest), p.2.Nodup := by
        intro p hp
        rcases List.mem_map.1 hp with ⟨s, hs, he⟩
        rw [← he]
        exact hnd s hs
      show filterLabel ℓ (multiFold ⟨[], []⟩ (allPairs lf (s0 :: rest))).ranges = _
      rw [multiFold_filter _ _ hps hinit ℓ]
      simp [runsFrom, lookupA, filterLabel]

/-! ### Counting lemmas for the frequency aggregator -/

theorem seriesGet_seriesAdd (m : List (String × Int)) (k k' : String) (n : Int) :
    seriesGet (seriesAdd m k n) k' =
      if k' = k then seriesGet m k' + n else seriesGet m k' := by
  induction m with
  | nil =>
    by_cases h : k' = k
    · subst h
      simp [seriesAdd, seriesGet]
    · simp [seriesAdd, seriesGet, h, Ne.symm h]
  | cons q m ih =>
    obtain ⟨a, c⟩ := q
    by_cases ha : a = k
    · subst ha
      by_cases h : k' = a
      · subst h
        simp [seriesAdd, seriesGet]
      · simp [seriesAdd, seriesGet, h, Ne.symm h]
    · by_cases h : a = k'
      · subst h
        simp [seriesAdd, seriesGet, ha]
      · simp [seriesAdd, seriesGet, ha, h, ih]

theorem plus_fold_count (g : Int → String) (ids : List Int) :
    ∀ (c : BarChart) (ℓ : String),
    seriesGet (ids.foldl (fun c v => c.Plus (g v) 1) c).Series ℓ =
      seriesGet c.Series ℓ +
        ((ids.filter (fun v => decide (g v = ℓ))).length : Int) := by
  induction ids with
  | nil => intro c ℓ; simp
  | cons v ids ih =>
    intro c ℓ
    rw [List.foldl_cons, ih]
    by_cases h : g v = ℓ
    · rw [List.filter_cons_of_pos (by simp [h])]
      show seriesGet (seriesAdd c.Series (g v) 1) ℓ + _ = _
      rw [seriesGet_seriesAdd, if_pos h.symm]
      push_cast [List.length_cons]
      ring
    · rw [List.filter_cons_of_neg (by simp [h])]
      show seriesGet (seriesAdd c.Series (g v) 1) ℓ + _ = _
      rw [seriesGet_seriesAdd, if_neg (fun e => h (Eq.symm e))]

/-! ### Sorting lemmas for `OrderedBars` -/

theorem insBar_perm (x : Bar) (l : List Bar) : (insBar x l).Perm (x :: l) := by
  induction l with
  | nil => exact List.Perm.refl _
  | cons y ys ih =>
    by_cases h : x.Count > y.Count
    · simp only [insBar, if_pos h]
      exact List.Perm.refl _
    · simp only [insBar, if_neg h]
      exact (ih.cons y).trans (List.Perm.swap x y ys)

theorem sortBarsList_perm (l : List Bar) : (sortBarsList l).Perm l := by
  have key : ∀ (l acc : List Bar),
      (l.foldl (fun acc x => insBar x acc) acc).Perm (acc ++ l) := by
    intro l
    induction l with
    | nil => intro acc; simp
    | cons x xs ih =>
      intro acc
      rw [List.foldl_cons]
      refine (ih (insBar x acc)).trans ?_
      refine (List.Perm.append_right xs (insBar_perm x acc)).trans ?_
      exact List.perm_middle.symm
  simpa [sortBarsList] using key l []

theorem insBar_sorted (x : Bar) (l : List Bar)
    (h : List.Pairwise (fun a b => b.Count ≤ a.Count) l) :
    List.Pairwise (fun a b => b.Count ≤ a.Count) (insBar x l) := by
  induction l with
  | nil => simp [insBar]
  | cons y ys ih =>
    rcases List.pairwise_cons.1 h with ⟨hy, hys⟩
    by_cases hc : x.Count > y.Count
    · simp only [insBar, if_pos hc]
      refine List.pairwise_cons.2 ⟨?_, h⟩
      intro b hb
      rcases List.mem_cons.1 hb with hb | hb
      · subst hb
        omega
      · have := hy b hb
        omega
    · simp only [insBar, if_neg hc]
      refine List.pairwise_cons.2 ⟨?_, ih hys⟩
      intro b hb
      rcases List.mem_cons.1 ((insBar_perm x ys).mem_iff.1 hb) with hb | hb
      · subst hb
        omega
      · exact hy b hb

theorem sortBarsList_sorted (l : List Bar) :
    List.Pairwise (fun a b => b.Count ≤ a.Count) (sortBarsList l) := by
  have key : ∀ (l acc : List Bar),
      List.Pairwise (fun a b => b.Count ≤ a.Count) acc →
      List.Pairwise (fun a b => b.Count ≤ a.Count)
        (l.foldl (fun acc x => insBar x acc) acc) := by
    intro l
    induction l with
    | nil => intro acc h; simpa using h
    | cons x xs ih =>
      intro acc h
      rw [List.foldl_cons]
      exact ih _ (insBar_sorted x acc h)
  exact key l [] (by simp)

theorem activeFold_cons' (st : ActiveState) (t : Nat) (a : Option String)
    (xs : List (Nat × Option String)) :
    activeFold st ((t, a) :: xs) = activeFold (activeStep st t a) xs := rfl

/-! ## Claim theorems for the timeline reconstructor -/

/-- Claim C2 (amended): for a non-empty Stream with non-decreasing snapshot
times, every Range of all three tracks satisfies `Start ≤ End`; and on the
`Active` track no two adjacent Ranges share a Label *provided every
snapshot's Active ID resolves to a window*.  The claim's blanket adjacency
clause is false for the `Visible` / `All` tracks (a label that disappears
and reappears yields adjacent equal-labelled Ranges, see
`C2_counterexample`), and for the `Active` track when an unresolvable
snapshot splits a run of one label. -/
theorem C2_bounds_and_active_chain (stream : Stream)
    (lf : Option Window → String) (tl : Timeline)
    (hmono : List.Chain' (· ≤ ·) (stream.Snapshots.map Snapshot.Time))
    (htl : NewTimeline stream lf = some tl) :
    (∀ r ∈ tl.Active, r.Start ≤ r.End) ∧
    (∀ r ∈ tl.Visible, r.Start ≤ r.End) ∧
    (∀ r ∈ tl.All, r.Start ≤ r.End) ∧
    ((∀ snap ∈ stream.Snapshots, (activeLabel lf snap).isSome = true) →
      List.Chain' (· ≠ ·) (tl.Active.map Range.Label)) := by
  rcases stream with ⟨snaps⟩
  cases snaps with
  | nil => simp [NewTimeline] at htl
  | cons s0 rest =>
    have heq := NewTimeline_eq ⟨s0 :: rest⟩ lf s0 rest rfl
    rw [htl] at heq
    injection heq with heq
    subst heq
    have hch : List.Chain (· ≤ ·) s0.Time ((s0 :: rest).map Snapshot.Time) := by
      rw [List.map_cons]
      refine List.Chain.cons (le_refl _) ?_
      rw [List.map_cons] at hmono
      exact hmono
    refine ⟨?_, ?_, ?_, ?_⟩
    · intro r hr
      refine activeFold_bounds _ _ s0.Time (by simp) ?_ r hr
      rw [actPairs_times]
      exact hch
    · intro r hr
      refine multiFold_bounds _ _ s0.Time (by simp) ?_ r hr
      rw [visPairs_times]
      exact hch
    · intro r hr
      refine multiFold_bounds _ _ s0.Time (by simp) ?_ r hr
      rw [allPairs_times]
      exact hch
    · intro hall
      have hxs : ∀ x ∈ actPairs lf (s0 :: rest), x.2.isSome = true := by
        intro x hx
        rcases List.mem_map.1 hx with ⟨s, hs, he⟩
        rw [← he]
        exact hall s hs
      exact (activeFold_chain _ _ hxs (by simp) rfl).1

/-- Witness for C2 at a two-snapshot stream with a single resolvable active
window. -/
theorem C2_bounds_witness :
    (∀ r ∈ ([⟨"A", 5, 7⟩] : List Range), r.Start ≤ r.End) ∧
    List.Chain' (· ≠ ·) (([⟨"A", 5, 7⟩] : List Range).map Range.Label) := by
  have h := C2_bounds_and_active_chain
    ⟨[⟨5, [⟨1, 0, "A"⟩], 1, []⟩, ⟨7, [⟨1, 0, "A"⟩], 1, []⟩]⟩ byName
    ⟨5, 7, [⟨"A", 5, 7⟩], [], [⟨"A", 5, 7⟩]⟩ (by simp) (by decide)
  exact ⟨h.1, h.2.2.2 (by decide)⟩

/-- Counterexample to C2 as frozen: a label visible at snapshots 1 and 3
but not 2 (an ordinary stream with non-decreasing times) produces two
adjacent `Visible` Ranges with the same Label. -/
theorem C2_counterexample :
    NewTimeline ⟨[⟨1, [⟨1, 0, "L"⟩], 1, [1]⟩, ⟨2, [⟨1, 0, "L"⟩], 1, []⟩,
        ⟨3, [⟨1, 0, "L"⟩], 1, [1]⟩]⟩ byName =
      some ⟨1, 3, [⟨"L", 1, 3⟩], [⟨"L", 1, 2⟩, ⟨"L", 3, 3⟩], [⟨"L", 1, 3⟩]⟩ ∧
    List.Chain' (· ≤ ·)
      (([⟨1, [⟨1, 0, "L"⟩], 1, [1]⟩, ⟨2, [⟨1, 0, "L"⟩], 1, []⟩,
        ⟨3, [⟨1, 0, "L"⟩], 1, [1]⟩] : List Snapshot).map Snapshot.Time) ∧
    ¬ List.Chain' (· ≠ ·)
      (([⟨"L", 1, 2⟩, ⟨"L", 3, 3⟩] : List Range).map Range.Label) :=
  ⟨by decide, by simp, by simp⟩

/-- Claim C3: a stream whose snapshots all resolve to the same active label
produces exactly one `Active` Range spanning first to last snapshot time. -/
theorem C3_coalescing (stream : Stream) (lf : Option Window → String)
    (ℓ : String) (tl : Timeline) (s0 : Snapshot) (rest : List Snapshot)
    (hsnap : stream.Snapshots = s0 :: rest)
    (hall : ∀ snap ∈ stream.Snapshots, activeLabel lf snap = some ℓ)
    (htl : NewTimeline stream lf = some tl) :
    tl.Active = [⟨ℓ, s0.Time, (stream.Snapshots.getLastD s0).Time⟩] := by
  have heq := NewTimeline_eq stream lf s0 rest hsnap
  rw [htl] at heq
  injection heq with heq
  subst heq
  show (activeFold ⟨[], none⟩ (actPairs lf (s0 :: rest))).ranges = _
  have h0 : activeLabel lf s0 = some ℓ := hall s0 (by rw [hsnap]; simp)
  have hrest : ∀ x ∈ actPairs lf rest, x.2 = some ℓ := by
    intro x hx
    rcases List.mem_map.1 hx with ⟨s, hs, he⟩
    rw [← he]
    exact hall s (by rw [hsnap]; simp [hs])
  have hpairs : actPairs lf (s0 :: rest) =
      (s0.Time, some ℓ) :: actPairs lf rest := by
    show (s0.Time, activeLabel lf s0) :: actPairs lf rest = _
    rw [h0]
  rw [hpairs, activeFold_cons']
  have hstate : activeStep ⟨[], none⟩ s0.Time (some ℓ) =
      (⟨[⟨ℓ, s0.Time, s0.Time⟩], some 0⟩ : ActiveState) := rfl
  rw [hstate, activeFold_const ℓ (actPairs lf rest) s0.Time s0.Time hrest]
  show [(⟨ℓ, s0.Time, ((actPairs lf rest).map Prod.fst).getLastD s0.Time⟩ : Range)] = _
  rw [actPairs_times, getLastD_time rest s0, hsnap, List.getLastD_cons]

/-- Witness for C3 at a two-snapshot stream with constant active label. -/
theorem C3_coalescing_witness :
    Timeline.Active ⟨5, 7, [⟨"A", 5, 7⟩], [], [⟨"A", 5, 7⟩]⟩ =
      [⟨"A", 5, 7⟩] := by
  have h := C3_coalescing
    ⟨[⟨5, [⟨1, 0, "A"⟩], 1, []⟩, ⟨7, [⟨1, 0, "A"⟩], 1, []⟩]⟩ byName "A"
    ⟨5, 7, [⟨"A", 5, 7⟩], [], [⟨"A", 5, 7⟩]⟩
    ⟨5, [⟨1, 0, "A"⟩], 1, []⟩ [⟨7, [⟨1, 0, "A"⟩], 1, []⟩]
    rfl (by decide) (by decide)
  exact h.trans (by decide)

/-- Claim C4 (amended): an unresolvable Active ID is treated as "no active
window": the step never fails, leaves the `Active` list untouched and
clears the open-range pointer (so the open Range keeps the `End` it got
from the previous snapshot and no empty-labelled Range is opened); a whole
stretch of unresolvable snapshots contributes nothing to the track. -/
theorem C4_unresolved_active (st : ActiveState) (t : Nat)
    (xs : List (Nat × Option String)) (hxs : ∀ x ∈ xs, x.2 = none) :
    activeStep st t none = ⟨st.ranges, none⟩ ∧
    (activeFold st xs).ranges = st.ranges :=
  ⟨rfl, activeFold_none_ranges xs st hxs⟩

/-- Witness for C4 on a concrete state and two unresolvable snapshots. -/
theorem C4_unresolved_witness :
    activeStep ⟨[⟨"A", 0, 0⟩], some 0⟩ 5 none = ⟨[⟨"A", 0, 0⟩], none⟩ ∧
    (activeFold ⟨[⟨"A", 0, 0⟩], some 0⟩ [(5, none), (6, none)]).ranges =
      [⟨"A", 0, 0⟩] :=
  C4_unresolved_active ⟨[⟨"A", 0, 0⟩], some 0⟩ 5 [(5, none), (6, none)]
    (by decide)

/-- Counterexample to C4 as frozen: with `snap.Active = 2` matching no
window at the second snapshot, the code does *not* behave as if an active
window labelled `""` were observed there — the open "A" Range is left with
`End = 0` (not closed at time 1) and no `""` Range is opened, unlike the
stream in which a window with name `""` actually is active. -/
theorem C4_counterexample :
    NewTimeline ⟨[⟨0, [⟨1, 0, "A"⟩], 1, []⟩, ⟨1, [⟨1, 0, "A"⟩], 2, []⟩]⟩
        byName =
      some ⟨0, 1, [⟨"A", 0, 0⟩], [], [⟨"A", 0, 1⟩]⟩ ∧
    NewTimeline ⟨[⟨0, [⟨1, 0, "A"⟩], 1, []⟩,
        ⟨1, [⟨1, 0, "A"⟩, ⟨2, 0, ""⟩], 2, []⟩]⟩ byName =
      some ⟨0, 1, [⟨"A", 0, 1⟩, ⟨"", 1, 1⟩], [], [⟨"A", 0, 1⟩, ⟨"", 1, 1⟩]⟩ ∧
    ([⟨"A", 0, 0⟩] : List Range) ≠ [⟨"A", 0, 1⟩, ⟨"", 1, 1⟩] :=
  ⟨by decide, by decide, by decide⟩

/-- Claim C5 (amended): with duplicate-free per-snapshot label sets, the
`ℓ`-Ranges of the `Visible` (and `All`) track are exactly one Range per
maximal run of `ℓ`: `Start` is the time of the snapshot at which the run
began, and `End` is the time of the *first snapshot at which `ℓ` was
observed absent* (the extend loop runs before the membership check), or
the final snapshot's time for a run still open at the end — not the time
of the last snapshot at which `ℓ` was present, see `C5_counterexample`. -/
theorem C5_run_end_times (stream : Stream) (lf : Option Window → String)
    (tl : Timeline) (ℓ : String)
    (hmono : List.Chain' (· ≤ ·) (stream.Snapshots.map Snapshot.Time))
    (hndv : ∀ snap ∈ stream.Snapshots, (visibleLabels lf snap).Nodup)
    (hnda : ∀ snap ∈ stream.Snapshots, (allLabels lf snap).Nodup)
    (htl : NewTimeline stream lf = some tl) :
    filterLabel ℓ tl.Visible = runsGo ℓ none (visPairs lf stream.Snapshots) ∧
    filterLabel ℓ tl.All = runsGo ℓ none (allPairs lf stream.Snapshots) := by
  have h := track_runs stream lf tl ℓ htl
  exact ⟨h.1 hndv, h.2 hnda⟩

/-- Witness for C5 at a stream whose label "L" is present at time 10 and
absent at time 20 (its Range closes with `End = 20`). -/
theorem C5_run_end_witness :
    filterLabel "L" (Timeline.Visible ⟨10, 20, [⟨"L", 10, 20⟩],
        [⟨"L", 10, 20⟩], [⟨"L", 10, 20⟩]⟩) =
      runsGo "L" none (visPairs byName [⟨10, [⟨1, 0, "L"⟩], 1, [1]⟩,
        ⟨20, [⟨1, 0, "L"⟩], 1, []⟩]) := by
  have h := C5_run_end_times
    ⟨[⟨10, [⟨1, 0, "L"⟩], 1, [1]⟩, ⟨20, [⟨1, 0, "L"⟩], 1, []⟩]⟩ byName
    ⟨10, 20, [⟨"L", 10, 20⟩], [⟨"L", 10, 20⟩], [⟨"L", 10, 20⟩]⟩ "L"
    (by simp) (by decide) (by decide) (by decide)
  exact h.1

/-- Counterexample to C5 as frozen: label "L" is last present at snapshot
time 10, yet its `Visible` Range ends at 20, the time of the snapshot at
which it was first observed absent. -/
theorem C5_counterexample :
    NewTimeline ⟨[⟨10, [⟨1, 0, "L"⟩], 1, [1]⟩, ⟨20, [⟨1, 0, "L"⟩], 1, []⟩]⟩
        byName =
      some ⟨10, 20, [⟨"L", 10, 20⟩], [⟨"L", 10, 20⟩], [⟨"L", 10, 20⟩]⟩ ∧
    (⟨"L", 10, 20⟩ : Range).End ≠ 10 :=
  ⟨by decide, by decide⟩

/-- Claim C6 (amended): over three snapshots with `ℓ` visible at 1 and 3
but not 2 — and duplicate-free per-snapshot visible label sets — the
`Visible` track holds exactly two Ranges labelled `ℓ`, namely
`[ℓ, t1, t2]` and `[ℓ, t3, t3]`.  Without the duplicate-free condition the
code appends one Range per same-labelled visible window, see
`C6_counterexample`. -/
theorem C6_churn (stream : Stream) (lf : Option Window → String) (ℓ : String)
    (tl : Timeline) (s1 s2 s3 : Snapshot)
    (hsnap : stream.Snapshots = [s1, s2, s3])
    (hnd : ∀ snap ∈ stream.Snapshots, (visibleLabels lf snap).Nodup)
    (h1 : ℓ ∈ visibleLabels lf s1) (h2 : ℓ ∉ visibleLabels lf s2)
    (h3 : ℓ ∈ visibleLabels lf s3)
    (htl : NewTimeline stream lf = some tl) :
    filterLabel ℓ tl.Visible =
      [⟨ℓ, s1.Time, s2.Time⟩, ⟨ℓ, s3.Time, s3.Time⟩] ∧
    (filterLabel ℓ tl.Visible).length = 2 := by
  have h := (track_runs stream lf tl ℓ htl).1 hnd
  rw [hsnap] at h
  have hruns : runsGo ℓ none (visPairs lf [s1, s2, s3]) =
      [⟨ℓ, s1.Time, s2.Time⟩, ⟨ℓ, s3.Time, s3.Time⟩] := by
    simp [visPairs, runsGo, h1, h2, h3]
  rw [h, hruns]
  exact ⟨rfl, rfl⟩

/-- Witness for C6 at the churn stream (times 1, 2, 3; "L" hidden at 2). -/
theorem C6_churn_witness :
    filterLabel "L" (Timeline.Visible ⟨1, 3, [⟨"L", 1, 3⟩],
        [⟨"L", 1, 2⟩, ⟨"M", 2, 3⟩, ⟨"L", 3, 3⟩],
        [⟨"L", 1, 3⟩, ⟨"M", 1, 3⟩]⟩) =
      [⟨"L", 1, 2⟩, ⟨"L", 3, 3⟩] := by
  have h := C6_churn
    ⟨[⟨1, [⟨1, 0, "L"⟩, ⟨2, 0, "M"⟩], 1, [1]⟩,
      ⟨2, [⟨1, 0, "L"⟩, ⟨2, 0, "M"⟩], 1, [2]⟩,
      ⟨3, [⟨1, 0, "L"⟩, ⟨2, 0, "M"⟩], 1, [1]⟩]⟩ byName "L"
    ⟨1, 3, [⟨"L", 1, 3⟩], [⟨"L", 1, 2⟩, ⟨"M", 2, 3⟩, ⟨"L", 3, 3⟩],
      [⟨"L", 1, 3⟩, ⟨"M", 1, 3⟩]⟩
    ⟨1, [⟨1, 0, "L"⟩, ⟨2, 0, "M"⟩], 1, [1]⟩
    ⟨2, [⟨1, 0, "L"⟩, ⟨2, 0, "M"⟩], 1, [2]⟩
    ⟨3, [⟨1, 0, "L"⟩, ⟨2, 0, "M"⟩], 1, [1]⟩
    rfl (by decide) (by decide) (by decide) (by decide) (by decide)
  exact h.1

/-- Counterexample to C6 as frozen: two visible windows share the name "L"
at snapshot 1 (an entirely legitimate state — two windows with equal
titles), so the `Visible` track receives three Ranges labelled "L", not
two, although "L" is in the visible label set at snapshots 1 and 3 and not
at snapshot 2. -/
theorem C6_counterexample :
    NewTimeline ⟨[⟨1, [⟨1, 0, "L"⟩, ⟨2, 0, "L"⟩], 1, [1, 2]⟩,
        ⟨2, [⟨1, 0, "L"⟩], 1, []⟩, ⟨3, [⟨1, 0, "L"⟩], 1, [1]⟩]⟩ byName =
      some ⟨1, 3, [⟨"L", 1, 3⟩],
        [⟨"L", 1, 1⟩, ⟨"L", 1, 2⟩, ⟨"L", 3, 3⟩],
        [⟨"L", 1, 1⟩, ⟨"L", 1, 3⟩]⟩ ∧
    "L" ∈ visibleLabels byName ⟨1, [⟨1, 0, "L"⟩, ⟨2, 0, "L"⟩], 1, [1, 2]⟩ ∧
    "L" ∉ visibleLabels byName ⟨2, [⟨1, 0, "L"⟩], 1, []⟩ ∧
    "L" ∈ visibleLabels byName ⟨3, [⟨1, 0, "L"⟩], 1, [1]⟩ ∧
    (filterLabel "L" [⟨"L", 1, 1⟩, ⟨"L", 1, 2⟩, ⟨"L", 3, 3⟩]).length ≠ 2 :=
  ⟨by decide, by decide, by decide, by decide, by decide⟩

/-! ## Claim theorems for the frequency aggregator and ranked bars -/

/-- Claim C9 (amended): for any enumeration of a chart's `Series` (the Go
loop `for l, c := range c.Series` walks the map in an arbitrary,
runtime-randomized order), `OrderedBars` returns the first
`maxNumberOfBars` (30) entries of a sorted permutation of that
enumeration: at most 30 bars, counts non-increasing, and all labels
distinct whenever the `Series` keys are — in particular all labels are
returned when fewer than 30 exist.  The frozen claim's tie-break (equal
counts ordered by first-seen insertion) does not hold: the order among
equal counts follows the map-iteration order, see `C9_counterexample`. -/
theorem C9_ordered_bars (enum : List (String × Int)) :
    OrderedBarsWith enum =
      (sortBarsList (enum.map (fun p => (⟨p.1, p.2⟩ : Bar)))).take
        maxNumberOfBars ∧
    (sortBarsList (enum.map (fun p => (⟨p.1, p.2⟩ : Bar)))).Perm
      (enum.map (fun p => (⟨p.1, p.2⟩ : Bar))) ∧
    List.Pairwise (fun a b => b.Count ≤ a.Count) (OrderedBarsWith enum) ∧
    (OrderedBarsWith enum).length = min maxNumberOfBars enum.length ∧
    ((enum.map Prod.fst).Nodup →
      ((OrderedBarsWith enum).map Bar.Label).Nodup) := by
  have hperm := sortBarsList_perm (enum.map (fun p => (⟨p.1, p.2⟩ : Bar)))
  have hsorted := sortBarsList_sorted (enum.map (fun p => (⟨p.1, p.2⟩ : Bar)))
  have hlen : (sortBarsList (enum.map (fun p => (⟨p.1, p.2⟩ : Bar)))).length =
      enum.length := by
    rw [hperm.length_eq, List.length_map]
  have htake : OrderedBarsWith enum =
      (sortBarsList (enum.map (fun p => (⟨p.1, p.2⟩ : Bar)))).take
        maxNumberOfBars := by
    by_cases h : maxNumberOfBars >
        (sortBarsList (enum.map (fun p => (⟨p.1, p.2⟩ : Bar)))).length
    · simp only [OrderedBarsWith, if_pos h]
      rw [List.take_length, List.take_all_of_le (by omega)]
    · simp only [OrderedBarsWith, if_neg h]
  refine ⟨htake, hperm, ?_, ?_, ?_⟩
  · rw [htake]
    exact hsorted.sublist (List.take_sublist _ _)
  · rw [htake, List.length_take, hlen]
  · intro hnd
    have hmaps : ((sortBarsList (enum.map
        (fun p => (⟨p.1, p.2⟩ : Bar)))).map Bar.Label).Nodup := by
      refine ((hperm.map Bar.Label).nodup_iff).2 ?_
      have hcomp : (enum.map (fun p => (⟨p.1, p.2⟩ : Bar))).map Bar.Label =
          enum.map Prod.fst := by
        rw [List.map_map]
        rfl
      rw [hcomp]
      exact hnd
    rw [htake, List.map_take]
    exact hmaps.sublist (List.take_sublist _ _)

/-- Witness for C9's distinct-labels clause at the spec's own example. -/
theorem C9_ordered_bars_witness :
    (([("A", (5 : Int)), ("B", 5), ("C", 3)].map Prod.fst)).Nodup ∧
    ((OrderedBarsWith [("A", 5), ("B", 5), ("C", 3)]).map Bar.Label).Nodup :=
  ⟨by decide,
    (C9_ordered_bars [("A", 5), ("B", 5), ("C", 3)]).2.2.2.2 (by decide)⟩

/-- Counterexample to C9 as frozen: the same `Series` contents
(A ↦ 5, B ↦ 5, C ↦ 3, with A inserted before B) can be enumerated by the
Go runtime in either order, and `OrderedBars`' sort (insertion sort for
fewer than 12 elements) keeps equal-count bars in enumeration order, so
the result can be `[B, A, C]` just as well as the claimed `[A, B, C]`:
there is no insertion-order tie-break. -/
theorem C9_counterexample :
    OrderedBarsWith [("A", 5), ("B", 5), ("C", 3)] =
      [⟨"A", 5⟩, ⟨"B", 5⟩, ⟨"C", 3⟩] ∧
    OrderedBarsWith [("B", 5), ("A", 5), ("C", 3)] =
      [⟨"B", 5⟩, ⟨"A", 5⟩, ⟨"C", 3⟩] ∧
    OrderedBarsWith [("A", 5), ("B", 5), ("C", 3)] ≠
      OrderedBarsWith [("B", 5), ("A", 5), ("C", 3)] :=
  ⟨by decide, by decide, by decide⟩

/-- Claim C10: in `NewAggTime`, a snapshot whose Active ID matches no
window leaves the "Active" chart's `Series` completely unchanged (the
sample is skipped); by contrast every id in `snap.Visible` adds 1 to the
"Visible" chart under the label the label function assigns to the lookup
result — an id matching no window is counted under `lf none` (which is
`"(nil)"` for the `appID` label function `Stats` uses). -/
theorem C10_agg_unresolved (lf : Option Window → String) (st : AggTime)
    (snap : Snapshot) (h : windowsMap snap.Windows snap.Active = none) :
    (aggStep lf st snap).ActiveChart = st.ActiveChart ∧
    ∀ ℓ, seriesGet (aggStep lf st snap).VisibleChart.Series ℓ =
      seriesGet st.VisibleChart.Series ℓ +
      ((snap.Visible.filter
        (fun v => decide (lf (windowsMap snap.Windows v) = ℓ))).length : Int) := by
  constructor
  · simp [aggStep, h]
  · intro ℓ
    show seriesGet ((snap.Visible.foldl
      (fun c v => c.Plus (lf (windowsMap snap.Windows v)) 1)
      st.VisibleChart)).Series ℓ = _
    exact plus_fold_count (fun v => lf (windowsMap snap.Windows v))
      snap.Visible st.VisibleChart ℓ

/-- Witness for C10: active id 99 matches nothing (chart unchanged), and
of the two visible ids the unresolvable one (7) is counted under
`appID none = "(nil)"`. -/
theorem C10_agg_witness :
    windowsMap [⟨1, 0, "A"⟩] 99 = none ∧
    (aggStep appID ⟨⟨"a", "b", "c", "d", []⟩, ⟨"a", "b", "c", "d", []⟩,
        ⟨"a", "b", "c", "d", []⟩⟩
      ⟨0, [⟨1, 0, "A"⟩], 99, [1, 7]⟩).ActiveChart =
      ⟨"a", "b", "c", "d", []⟩ ∧
    seriesGet (aggStep appID ⟨⟨"a", "b", "c", "d", []⟩,
        ⟨"a", "b", "c", "d", []⟩, ⟨"a", "b", "c", "d", []⟩⟩
      ⟨0, [⟨1, 0, "A"⟩], 99, [1, 7]⟩).VisibleChart.Series "(nil)" = 0 + 1 := by
  have h := C10_agg_unresolved appID
    ⟨⟨"a", "b", "c", "d", []⟩, ⟨"a", "b", "c", "d", []⟩,
      ⟨"a", "b", "c", "d", []⟩⟩
    ⟨0, [⟨1, 0, "A"⟩], 99, [1, 7]⟩ (by decide)
  refine ⟨by decide, h.1, ?_⟩
  have h2 := h.2 "(nil)"
  rw [h2]
  decide

end Thyme
